import Mathlib

/-!
Shallow embedding of the qcML MultiQC plugin modules (readqc, mappingqc,
somaticqc, variantqc).  Python dicts are modelled as insertion-ordered
association lists with unique keys (update in place, append when new), Python
floats as rationals, raising code as an explicit result type.  Host-framework
and standard-library boundaries (ElementTree parsing, the float builtin,
sample discovery and the ignore-samples filter) enter as parameters; all code
under the modules themselves is translated statement by statement.
-/

namespace Qcml

/-- Python-level failures observable from the qcML modules. -/
inductive PyErr : Type
  | keyError (k : String)
  | typeError
  | userWarning
  | xmlError (msg : String)
deriving DecidableEq, Repr

/-- Result of running a Python fragment that may raise. -/
inductive PRes (α : Type) : Type
  | ok (a : α)
  | err (e : PyErr)
deriving DecidableEq, Repr

/-- A value held in the per-sample mapping: a Python float (modelled as a
rational) or the original string. -/
inductive Value : Type
  | num (q : ℚ)
  | str (s : String)
deriving DecidableEq, Repr

/-- Ordered-dict lookup. -/
def lookup? {α : Type} : List (String × α) → String → Option α
  | [], _ => none
  | p :: ps, k => if p.1 = k then some p.2 else lookup? ps k

/-- Keys of an ordered dict, in insertion order. -/
def keys {α : Type} (m : List (String × α)) : List String := m.map Prod.fst

/-- Python dict assignment: overwrite in place when the key exists, append
otherwise. -/
def insertKey {α : Type} : List (String × α) → String → α → List (String × α)
  | [], k, v => [(k, v)]
  | p :: ps, k, v => if p.1 = k then (k, v) :: ps else p :: insertKey ps k v

/-- Python dict pop of a present key: remove the entry. -/
def eraseKey {α : Type} : List (String × α) → String → List (String × α)
  | [], _ => []
  | p :: ps, k => if p.1 = k then ps else p :: eraseKey ps k

/-- Python `k in d`. -/
def hasKey {α : Type} (m : List (String × α)) (k : String) : Bool :=
  (lookup? m k).isSome

/-- An XML element as ElementTree delivers it to the loop: its attribute
dictionary.  The `findall` call hands over the qualityParameter elements in
document order; that list is the input of the embedded loop. -/
structure Elem : Type where
  attrib : List (String × String)
deriving DecidableEq, Repr

/-- Python str.startswith, on code points. -/
def startsWith (s pre : String) : Bool := pre.data.isPrefixOf s.data

/-- Suffix test on code points, matching Python slicing semantics. -/
def endsWith (s post : String) : Bool := post.data.isSuffixOf s.data

/-- Drop the last n code points, as the Python slice s[:-n]. -/
def dropRightS (s : String) (n : Nat) : String :=
  String.mk (s.data.take (s.data.length - n))

/-- Models re.sub applied with pattern " percentage$" and replacement " %".
Python `$` (without MULTILINE) matches at the end of the string and also just
before a newline that is the last character, so a name ending in
" percentage" followed by a single final newline is rewritten as well. -/
def subPercentage (s : String) : String :=
  if endsWith s " percentage" then dropRightS s 11 ++ " %"
  else if endsWith s " percentage\n" then dropRightS s 12 ++ " %\n"
  else s

/-- Value stored for a kept quality parameter: float conversion when it
succeeds, the original string when float raises ValueError. -/
def storedValue (pyFloat : String → Option ℚ) (v : String) : Value :=
  match pyFloat v with
  | some q => Value.num q
  | none => Value.str v

/-- An entry of the shared description table `self.qcml`.  Entries written by
parse_qcml carry an accession; the synthetic entries the modules add later do
not. -/
structure TableEntry : Type where
  description : String
  accession : Option String
deriving DecidableEq, Repr

abbrev Dict := List (String × Value)

abbrev Table := List (String × TableEntry)

/-- Body of the parse_qcml loop for one element.  Attribute reads happen in
source order: value (n/a check), name, value again inside the try, then
description and accession while building the table entry; a missing attribute
raises KeyError.  The source mutates the result dict before reading
description, but since any raise aborts the whole call no intermediate dict is
observable, so the step is modelled atomically. -/
def parseStep (pyFloat : String → Option ℚ) (t : Table) (m : Dict) (qp : Elem) :
    PRes (Dict × Table) :=
  match lookup? qp.attrib "value" with
  | none => .err (.keyError "value")
  | some v =>
    if startsWith v "n/a" then .ok (m, t)
    else
      match lookup? qp.attrib "name" with
      | none => .err (.keyError "name")
      | some nm =>
        match lookup? qp.attrib "description" with
        | none => .err (.keyError "description")
        | some desc =>
          match lookup? qp.attrib "accession" with
          | none => .err (.keyError "accession")
          | some acc =>
            .ok (insertKey m (subPercentage nm) (storedValue pyFloat v),
                 insertKey t (subPercentage nm) ⟨desc, some acc⟩)

/-- The parse_qcml loop over the qualityParameter elements.  `m` is the local
quality_parameters dict, `t` the shared description table threaded through. -/
def parse_qcml_elems (pyFloat : String → Option ℚ) (t : Table) (m : Dict) :
    List Elem → PRes (Dict × Table)
  | [] => .ok (m, t)
  | qp :: qps =>
    match parseStep pyFloat t m qp with
    | .err e => .err e
    | .ok (m', t') => parse_qcml_elems pyFloat t' m' qps

/-- parse_qcml on raw text.  ElementTree fromstring plus findall is a
standard-library call, taken as the parameter `xmlFindall`: it yields the
qualityParameter elements in document order, or the parse error raised on
malformed XML, which parse_qcml does not catch. -/
def parse_qcml (xmlFindall : String → PRes (List Elem))
    (pyFloat : String → Option ℚ) (t : Table) (contents : String) :
    PRes (Dict × Table) :=
  match xmlFindall contents with
  | .err e => .err e
  | .ok qps => parse_qcml_elems pyFloat t [] qps

/-- True when the loop skips this element: its value attribute is present and
starts with the literal prefix n/a. -/
def naSkipped (qp : Elem) : Bool :=
  match lookup? qp.attrib "value" with
  | some v => startsWith v "n/a"
  | none => false

/-- Normalized keys contributed by a document, in document order; skipped and
raising elements contribute nothing. -/
def keptKeys : List Elem → List String
  | [] => []
  | qp :: qps =>
    match lookup? qp.attrib "value" with
    | none => keptKeys qps
    | some v =>
      if startsWith v "n/a" then keptKeys qps
      else
        match lookup? qp.attrib "name" with
        | none => keptKeys qps
        | some nm => subPercentage nm :: keptKeys qps

/-- Append a key if it is not already present. -/
def addNew (acc : List String) (n : String) : List String :=
  if n ∈ acc then acc else acc ++ [n]

/-- First-occurrence deduplication, preserving order. -/
def dedupFirst (ns : List String) : List String := ns.foldl addNew []

/-- An element the loop can process without raising: value present, and
either skipped as n/a or carrying all of name, description and accession. -/
def goodElem (qp : Elem) : Prop :=
  ∃ v, lookup? qp.attrib "value" = some v ∧
    (startsWith v "n/a" = true ∨
      ((∃ nm, lookup? qp.attrib "name" = some nm) ∧
       (∃ d, lookup? qp.attrib "description" = some d) ∧
       (∃ a, lookup? qp.attrib "accession" = some a)))

/-- One discovered input file: the cleaned sample name and the
qualityParameter elements of its qcML document.  File discovery and sample
name cleaning belong to the host framework. -/
abbrev Files := List (String × List Elem)

/-- The find_log_files loop of each module: parse every file, store the
result under the sample name, thread the shared description table. -/
def parsePhase (pyFloat : String → Option ℚ) :
    Files → List (String × Dict) → Table → PRes (List (String × Dict) × Table)
  | [], qcdata, t => .ok (qcdata, t)
  | (s, qps) :: fs, qcdata, t =>
    match parse_qcml_elems pyFloat t [] qps with
    | .err e => .err e
    | .ok (m, t') => parsePhase pyFloat fs (insertKey qcdata s m) t'

/-- Models ignore_samples of the host framework: drop the samples whose name
matches the user-supplied ignore patterns, here an abstract predicate. -/
def ignoreSamples (ignored : String → Bool) (qcdata : List (String × Dict)) :
    List (String × Dict) :=
  qcdata.filter (fun p => !(ignored p.1))

/-- Per-sample megabase conversion: kv[newK] = kv[oldK] * 1e6 then pop oldK.
A missing oldK raises KeyError; a string value makes the multiplication raise
TypeError. -/
def convertSample (oldK newK : String) (kv : Dict) : PRes Dict :=
  match lookup? kv oldK with
  | none => .err (.keyError oldK)
  | some (Value.str _) => .err .typeError
  | some (Value.num q) =>
    .ok (eraseKey (insertKey kv newK (Value.num (q * 1000000))) oldK)

/-- The conversion loop over all samples. -/
def convertSamples (oldK newK : String) :
    List (String × Dict) → PRes (List (String × Dict))
  | [] => .ok []
  | (s, kv) :: rest =>
    match convertSample oldK newK kv with
    | .err e => .err e
    | .ok kv' =>
      match convertSamples oldK newK rest with
      | .err e => .err e
      | .ok rest' => .ok ((s, kv') :: rest')

/-- The shared bases-conversion block: pop oldK from the description table
(KeyError when absent), add a synthetic entry for newK with only a
description, then convert every sample. -/
def mbConvert (oldK newK desc : String) (t : Table)
    (qcdata : List (String × Dict)) : PRes (Table × List (String × Dict)) :=
  if hasKey t oldK then
    match convertSamples oldK newK qcdata with
    | .err e => .err e
    | .ok qcdata' => .ok (insertKey (eraseKey t oldK) newK ⟨desc, none⟩, qcdata')
  else .err (.keyError oldK)

/-- A table-header entry.  The concrete formatting payloads (suffix, format
string, scale, clamps) are host-rendering configuration; they are abstracted
to inert string tags, while the control flow deciding which updates run, and which
raise KeyError, is modelled exactly. -/
structure HeaderInfo : Type where
  namespaceName : String
  title : String
  description : String
  fmts : List String
deriving DecidableEq, Repr

abbrev Headers := List (String × HeaderInfo)

/-- The headers dict comprehension over the description table. -/
def mkHeaders (ns : String) (t : Table) : Headers :=
  t.map (fun p => (p.1, ⟨ns, p.1, p.2.description, []⟩))

/-- headers[k].update(tag): KeyError when k is absent. -/
def updateHeader (h : Headers) (k tag : String) : PRes Headers :=
  match lookup? h k with
  | none => .err (.keyError k)
  | some info => .ok (insertKey h k { info with fmts := info.fmts ++ [tag] })

/-- A try block of header updates with `except KeyError: pass`: run the
updates in order; on the first missing key keep the updates already applied
and fall through. -/
def tryUpdates (h : Headers) : List (String × String) → Headers
  | [] => h
  | (k, tag) :: rest =>
    match updateHeader h k tag with
    | .ok h' => tryUpdates h' rest
    | .err _ => h

/-- A sequence of unconditional header updates: a missing key raises. -/
def requireUpdates (h : Headers) : List (String × String) → PRes Headers
  | [] => .ok h
  | (k, tag) :: rest =>
    match updateHeader h k tag with
    | .err e => .err e
    | .ok h' => requireUpdates h' rest

/-- dict_ordered_subset from the shared base class: keep the requested keys
in the requested order, silently ignoring missing ones. -/
def dict_ordered_subset {α : Type} (d : List (String × α)) (ks : List String) :
    List (String × α) :=
  ks.foldl (fun od k =>
    match lookup? d k with
    | some v => insertKey od k v
    | none => od) []

/-- Fetch description and accession of one table entry, as make_description
reads them: missing entry or missing accession field raises KeyError; the
format call returns the description (the accession argument is unused by the
format string). -/
def descAccession (t : Table) (k : String) : PRes String :=
  match lookup? t k with
  | none => .err (.keyError k)
  | some e =>
    match e.accession with
    | none => .err (.keyError "accession")
    | some _ => .ok e.description

def descAccessionList (t : Table) : List String → PRes (List String)
  | [] => .ok []
  | k :: ks =>
    match descAccession t k with
    | .err e => .err e
    | .ok d =>
      match descAccessionList t ks with
      | .err e => .err e
      | .ok ds => .ok (d :: ds)

/-- make_description from the shared base class. -/
def make_description (t : Table) (ks : List String) : PRes String :=
  match ks with
  | [k] => descAccession t k
  | _ =>
    match descAccessionList t ks with
    | .err e => .err e
    | .ok ds =>
      .ok ("<ul>" ++ String.join (ds.map (fun d => "<li>" ++ d ++ "</li>")) ++ "</ul>")

/-- The unconditional ReadQC header updates, in source order. -/
def readqcRequired : List (String × String) :=
  [("Q20 read %", "suffix:pct format:2f max:100"),
   ("Q30 base %", "suffix:pct format:2f max:100"),
   ("gc content %", "suffix:pct format:2f max:100"),
   ("no base call %", "suffix:pct format:2f floor:1"),
   ("bases sequenced", "suffix:base-count format:2f modify:base-count-multiplier"),
   ("read count", "suffix:read-count format:2f modify:read-count-multiplier"),
   ("read length", "suffix:bp format:0f")]

def readqcHeaders (t : Table) : PRes Headers :=
  requireUpdates (mkHeaders "ReadQC" t) readqcRequired

def readqcGeneralCols : List String := ["read count", "bases sequenced", "gc content %"]

/-- Observable output of a successful ReadQC run: the per-sample data, the
general-statistics columns, and the overview table headers. -/
structure ReadQCOut : Type where
  qcdata : List (String × Dict)
  generalStats : Headers
  overview : Headers
deriving DecidableEq, Repr

/-- The ReadQC MultiqcModule constructor, from the parsed files onward. -/
def readqc_init (pyFloat : String → Option ℚ) (ignored : String → Bool)
    (files : Files) : PRes ReadQCOut :=
  match parsePhase pyFloat files [] [] with
  | .err e => .err e
  | .ok (qcdata0, t0) =>
    let qcdata1 := ignoreSamples ignored qcdata0
    if qcdata1.isEmpty then .err .userWarning
    else
      match mbConvert "bases sequenced (MB)" "bases sequenced"
          "Bases sequenced in total." t0 qcdata1 with
      | .err e => .err e
      | .ok (t1, qcdata2) =>
        match readqcHeaders t1 with
        | .err e => .err e
        | .ok h => .ok ⟨qcdata2, dict_ordered_subset h readqcGeneralCols, h⟩

/-- The unconditional MappingQC header updates, in source order. -/
def mappingqcRequired : List (String × String) :=
  [("trimmed base %", "suffix:pct format:2f floor:1 scale:PuBu"),
   ("clipped base %", "suffix:pct format:2f floor:1 scale:PuRd"),
   ("mapped read %", "suffix:pct format:2f max:100 scale:Reds"),
   ("bases usable", "suffix:base-count format:2f modify:base-count-multiplier scale:Greens"),
   ("on-target read %", "suffix:pct format:2f max:100 scale:Purples")]

def coverageValues : List Nat := [10, 20, 30, 50, 100, 200, 500]

def covKey (x : Nat) : String := "target region " ++ toString x ++ "x %"

/-- The four try blocks guarding optional MappingQC columns, in source order:
duplicate marking, paired-end, human reference, target-region coverage. -/
def mappingqcOptionalTry : List (List (String × String)) :=
  [[("duplicate read %", "suffix:pct format:2f max:100 scale:YlOrRd")],
   [("properly-paired read %", "suffix:pct format:2f max:100 scale:GnBu"),
    ("insert size", "suffix:bp format:2f scale:RdYlGn")],
   [("SNV allele frequency deviation", "format:2f floor:0 ceiling:10 minRange:10 scale:Greys")],
   (("target region read depth", "suffix:x format:2f") ::
      coverageValues.map (fun x => (covKey x, "suffix:pct format:2f max:100 scale:YlGn")))]

def mappingqcHeaders (t : Table) : PRes Headers :=
  match requireUpdates (mkHeaders "MappingQC" t) mappingqcRequired with
  | .err e => .err e
  | .ok h => .ok (mappingqcOptionalTry.foldl tryUpdates h)

def mappingqcGeneralCols : List String :=
  ["bases usable", "mapped read %", "on-target read %", "target region read depth"]

def mappingqcOverviewCols : List String :=
  ["bases usable", "on-target read %", "mapped read %", "properly-paired read %",
   "trimmed base %", "clipped base %", "duplicate read %", "insert size",
   "SNV allele frequency deviation"]

def mappingqcCoverageCols : List String :=
  "target region read depth" :: coverageValues.map covKey

/-- The target-coverage bar-plot header list: a singleton dict per coverage
key, built by direct headers[k] access with no try guard, so a missing key
raises KeyError. -/
def covSingletons (h : Headers) : List String → PRes (List Headers)
  | [] => .ok []
  | k :: ks =>
    match lookup? h k with
    | none => .err (.keyError k)
    | some v =>
      match covSingletons h ks with
      | .err e => .err e
      | .ok rest => .ok ([(k, v)] :: rest)

/-- The coverage sections of a MappingQC run: the coverage table columns, the
depth bar-plot description, the depth bar-plot columns, and the
target-coverage singleton header dicts. -/
structure CoverageOut : Type where
  table : Headers
  depthDesc : String
  depthCols : Headers
  singles : List Headers
deriving DecidableEq, Repr

/-- Observable output of a successful MappingQC run.  The coverage field is
present exactly when target region 10x % exists in the headers. -/
structure MappingQCOut : Type where
  qcdata : List (String × Dict)
  generalStats : Headers
  overview : Headers
  coverage : Option CoverageOut
deriving DecidableEq, Repr

/-- The MappingQC MultiqcModule constructor, from the parsed files onward. -/
def mappingqc_init (pyFloat : String → Option ℚ) (ignored : String → Bool)
    (files : Files) : PRes MappingQCOut :=
  match parsePhase pyFloat files [] [] with
  | .err e => .err e
  | .ok (qcdata0, t0) =>
    let qcdata1 := ignoreSamples ignored qcdata0
    if qcdata1.isEmpty then .err .userWarning
    else
      match mbConvert "bases usable (MB)" "bases usable"
          "Bases sequenced in total." t0 qcdata1 with
      | .err e => .err e
      | .ok (t1, qcdata2) =>
        match mappingqcHeaders t1 with
        | .err e => .err e
        | .ok h =>
          let gs := dict_ordered_subset h mappingqcGeneralCols
          let ov := dict_ordered_subset h mappingqcOverviewCols
          if hasKey h "target region 10x %" then
            match make_description t1 ["target region read depth"] with
            | .err e => .err e
            | .ok d =>
              match covSingletons h (coverageValues.map covKey) with
              | .err e => .err e
              | .ok lst =>
                .ok ⟨qcdata2, gs, ov,
                     some ⟨dict_ordered_subset h mappingqcCoverageCols, d,
                           dict_ordered_subset h ["target region read depth"], lst⟩⟩
          else .ok ⟨qcdata2, gs, ov, none⟩

/-- All column dicts that reach the table and bar-plot renderers of a
MappingQC run. -/
def mappingqcTables (o : MappingQCOut) : List Headers :=
  match o.coverage with
  | none => [o.generalStats, o.overview]
  | some c => [o.generalStats, o.overview, c.table, c.depthCols] ++ c.singles

/-- The optional MappingQC display parameters named by the spec. -/
def mappingqcOptionalKeys : List String :=
  ["duplicate read %", "properly-paired read %", "insert size",
   "SNV allele frequency deviation", "target region read depth"] ++
    coverageValues.map covKey

/-- The control character U+0002 that the non-raw replacement string denotes. -/
def chr2 : Char := Char.ofNat 2

/-- Literal matcher: consume `lit` from the front of the input. -/
def matchLit : List Char → List Char → Option (List Char)
  | [], s => some s
  | _ :: _, [] => none
  | c :: cs, d :: ds => if c = d then matchLit cs ds else none

def isDigitDot (c : Char) : Bool := c.isDigit || c == '.'

/-- The severity alternation of the rate pattern, tried in source order. -/
def matchSev (s : List Char) : Option (List Char) :=
  match matchLit "low".data s with
  | some r => some r
  | none =>
    match matchLit "moderate".data s with
    | some r => some r
    | none => matchLit "high".data s

/-- Match of the somatic-variant-rate pattern at the head of the input,
returning the remainder after the match.  Alternation tries low, moderate,
high in order; the bracketed digit class is matched greedily, which is exact
because the following literal starts with a space, a character the class
excludes, so the regex engine never backtracks into the class. -/
def matchRateAt (s : List Char) : Option (List Char) :=
  match matchSev s with
  | none => none
  | some r1 =>
    match matchLit " (".data r1 with
    | none => none
    | some r2 =>
      if (r2.takeWhile isDigitDot).isEmpty then none
      else matchLit " var/Mb)".data (r2.dropWhile isDigitDot)

/-- Fuel-indexed left-to-right scan replacing every non-overlapping match of
the rate pattern with U+0002.  Every step consumes at least one character, so
fuel equal to the string length never runs out. -/
def subRateAux : Nat → List Char → List Char
  | 0, cs => cs
  | _ + 1, [] => []
  | f + 1, c :: cs =>
    match matchRateAt (c :: cs) with
    | some rest => chr2 :: subRateAux f rest
    | none => c :: subRateAux f cs

/-- Models the re.sub call of SomaticQC: the replacement is written without a
raw-string prefix, so Python reads the escape as the octal code 2 and
substitutes the control character U+0002 in place of each match, not the
second capture group. -/
def subRate (s : String) : String := String.mk (subRateAux s.data.length s.data)

/-- The per-sample somatic-variant-rate post-processing of SomaticQC:
reassign the key to float of the substituted string, popping the key when
float raises ValueError.  A missing key raises KeyError (only ValueError is
caught) and a numeric value makes re.sub raise TypeError. -/
def somaticRateStep (pyFloat : String → Option ℚ) (kv : Dict) : PRes Dict :=
  match lookup? kv "somatic variant rate" with
  | none => .err (.keyError "somatic variant rate")
  | some (Value.num _) => .err .typeError
  | some (Value.str s) =>
    match pyFloat (subRate s) with
    | some q => .ok (insertKey kv "somatic variant rate" (Value.num q))
    | none => .ok (eraseKey kv "somatic variant rate")

/-- Digits-only natural number reader used by the concrete float stand-in. -/
def natOfDigits? (cs : List Char) : Option ℕ :=
  if cs ≠ [] ∧ cs.all Char.isDigit then
    some (cs.foldl (fun n c => 10 * n + (c.toNat - 48)) 0)
  else none

/-- A concrete stand-in for the Python float builtin, used to instantiate the
parametric theorems in witnesses: it accepts plain decimal literals (a digit
run, or two digit runs joined by one point), on which Python float succeeds with the same
value, and rejects everything else it is applied to in the witnesses, on
which Python float raises ValueError. -/
def splitDotAux : List Char → List Char → List (List Char)
  | [], acc => [acc.reverse]
  | c :: cs, acc =>
    if c = '.' then acc.reverse :: splitDotAux cs [] else splitDotAux cs (c :: acc)

def pyFloatSimple (s : String) : Option ℚ :=
  match splitDotAux s.data [] with
  | [a] => (natOfDigits? a).map (fun n => (n : ℚ))
  | [a, b] =>
    match natOfDigits? a, natOfDigits? b with
    | some na, some nb => some ((na : ℚ) + (nb : ℚ) / ((10 : ℚ) ^ b.length))
    | _, _ => none
  | _ => none

/-- A concrete ElementTree stand-in for malformed input, used in witnesses:
fromstring raises a parse error on every text it is given. -/
def xmlFailing (contents : String) : PRes (List Elem) := .err (.xmlError contents)

/-- Convenience constructor for a fully attributed qualityParameter element. -/
def mkElem (nm v d a : String) : Elem :=
  ⟨[("name", nm), ("value", v), ("description", d), ("accession", a)]⟩


/-! Association-list lemmas. -/

theorem lookup_insertKey_self {α : Type} (m : List (String × α)) (k : String) (v : α) :
    lookup? (insertKey m k v) k = some v := by
  induction m with
  | nil => simp [insertKey, lookup?]
  | cons p ps ih =>
    by_cases h : p.1 = k
    · simp [insertKey, h, lookup?]
    · simp [insertKey, h, lookup?, ih]

theorem lookup_insertKey_ne {α : Type} (m : List (String × α)) (k k' : String) (v : α)
    (h : k' ≠ k) : lookup? (insertKey m k v) k' = lookup? m k' := by
  have hk : ¬ (k = k') := fun e => h e.symm
  induction m with
  | nil => simp [insertKey, lookup?, hk]
  | cons p ps ih =>
    by_cases hp : p.1 = k
    · have hp' : ¬ (p.1 = k') := fun e => hk (hp ▸ e)
      simp [insertKey, hp, lookup?, hk, hp']
    · simp only [insertKey, hp, if_false, lookup?]
      by_cases hq : p.1 = k'
      · simp [hq]
      · simp [hq, ih]

theorem mem_keys_of_lookup {α : Type} (m : List (String × α)) (k : String) (v : α) :
    lookup? m k = some v → k ∈ keys m := by
  induction m with
  | nil => intro h; simp [lookup?] at h
  | cons p ps ih =>
    intro h
    by_cases hp : p.1 = k
    · simp [keys, ← hp]
    · simp only [lookup?, hp, if_false] at h
      simp only [keys, List.map_cons, List.mem_cons]
      exact Or.inr (ih h)

theorem lookup_some_of_mem_keys {α : Type} (m : List (String × α)) (k : String) :
    k ∈ keys m → ∃ v, lookup? m k = some v := by
  induction m with
  | nil => intro h; simp [keys] at h
  | cons p ps ih =>
    intro h
    by_cases hp : p.1 = k
    · exact ⟨p.2, by simp [lookup?, hp]⟩
    · simp only [keys, List.map_cons, List.mem_cons] at h
      rcases h with h | h
      · exact absurd h.symm hp
      · rcases ih h with ⟨v, hv⟩
        exact ⟨v, by simp [lookup?, hp, hv]⟩

theorem lookup_none_iff {α : Type} (m : List (String × α)) (k : String) :
    lookup? m k = none ↔ k ∉ keys m := by
  constructor
  · intro h hk
    rcases lookup_some_of_mem_keys m k hk with ⟨v, hv⟩
    rw [h] at hv
    exact Option.noConfusion hv
  · intro h
    cases hl : lookup? m k with
    | none => rfl
    | some v => exact absurd (mem_keys_of_lookup m k v hl) h

theorem keys_insertKey_mem {α : Type} (m : List (String × α)) (k : String) (v : α)
    (h : k ∈ keys m) : keys (insertKey m k v) = keys m := by
  induction m with
  | nil => simp [keys] at h
  | cons p ps ih =>
    by_cases hp : p.1 = k
    · simp [insertKey, hp, keys]
    · have hk : k ∈ keys ps := by
        rcases (by simpa [keys] using h : k = p.1 ∨ k ∈ List.map Prod.fst ps) with e | hm
        · exact absurd e.symm hp
        · simpa [keys] using hm
      simp only [insertKey, hp, if_false, keys, List.map_cons]
      rw [show List.map Prod.fst (insertKey ps k v) = List.map Prod.fst ps from ih hk]

theorem keys_insertKey_not_mem {α : Type} (m : List (String × α)) (k : String) (v : α)
    (h : k ∉ keys m) : keys (insertKey m k v) = keys m ++ [k] := by
  induction m with
  | nil => simp [insertKey, keys]
  | cons p ps ih =>
    have hp : ¬ (p.1 = k) := by
      intro e
      exact h (by simp [keys, ← e])
    have hk : k ∉ keys ps := by
      intro hm
      exact h (by simp [keys]; exact Or.inr (by simpa [keys] using hm))
    simp only [insertKey, hp, if_false, keys, List.map_cons, List.cons_append]
    rw [show List.map Prod.fst (insertKey ps k v) = List.map Prod.fst ps ++ [k] from ih hk]

theorem mem_keys_insertKey_of_mem {α : Type} (m : List (String × α)) (k k' : String)
    (v : α) (h : k' ∈ keys m) : k' ∈ keys (insertKey m k v) := by
  by_cases hm : k ∈ keys m
  · rw [keys_insertKey_mem m k v hm]; exact h
  · rw [keys_insertKey_not_mem m k v hm]; exact List.mem_append_left _ h

theorem mem_keys_insertKey_iff {α : Type} (m : List (String × α)) (k k' : String)
    (v : α) : k' ∈ keys (insertKey m k v) ↔ k' ∈ keys m ∨ k' = k := by
  by_cases hm : k ∈ keys m
  · rw [keys_insertKey_mem m k v hm]
    constructor
    · exact Or.inl
    · rintro (h | rfl)
      · exact h
      · exact hm
  · rw [keys_insertKey_not_mem m k v hm]
    simp

theorem lookup_eraseKey_ne {α : Type} (m : List (String × α)) (k k' : String)
    (h : k' ≠ k) : lookup? (eraseKey m k) k' = lookup? m k' := by
  induction m with
  | nil => simp [eraseKey]
  | cons p ps ih =>
    by_cases hp : p.1 = k
    · have hp' : ¬ (p.1 = k') := fun e => h (by rw [← e, hp])
      rw [show eraseKey (p :: ps) k = ps from by simp [eraseKey, hp]]
      simp only [lookup?, hp', if_false]
    · rw [show eraseKey (p :: ps) k = p :: eraseKey ps k from by simp [eraseKey, hp]]
      by_cases hq : p.1 = k'
      · simp [lookup?, hq]
      · simp [lookup?, hq, ih]

theorem keys_eraseKey_subset {α : Type} (m : List (String × α)) (k k' : String) :
    k' ∈ keys (eraseKey m k) → k' ∈ keys m := by
  induction m with
  | nil => intro h; simpa [eraseKey] using h
  | cons p ps ih =>
    intro h
    by_cases hp : p.1 = k
    · simp only [eraseKey, hp, if_true] at h
      simp [keys]
      exact Or.inr (by simpa [keys] using h)
    · simp only [eraseKey, hp, if_false, keys, List.map_cons, List.mem_cons] at h
      simp only [keys, List.map_cons, List.mem_cons]
      rcases h with h | h
      · exact Or.inl h
      · exact Or.inr (ih (by simpa [keys] using h))

theorem lookup_eraseKey_self {α : Type} (m : List (String × α)) (k : String)
    (h : (keys m).Nodup) : lookup? (eraseKey m k) k = none := by
  induction m with
  | nil => simp [eraseKey, lookup?]
  | cons p ps ih =>
    simp only [keys, List.map_cons, List.nodup_cons] at h
    by_cases hp : p.1 = k
    · simp only [eraseKey, hp, if_true]
      rw [lookup_none_iff]
      intro hk
      exact h.1 (by simpa [keys, hp] using hk)
    · simp only [eraseKey, hp, if_false, lookup?, hp, if_false]
      exact ih h.2

theorem nodup_keys_insertKey {α : Type} (m : List (String × α)) (k : String) (v : α)
    (h : (keys m).Nodup) : (keys (insertKey m k v)).Nodup := by
  by_cases hm : k ∈ keys m
  · rw [keys_insertKey_mem m k v hm]; exact h
  · rw [keys_insertKey_not_mem m k v hm]
    simpa [List.nodup_append] using ⟨h, hm⟩

theorem mem_of_mem_insertKey {α : Type} (m : List (String × α)) (k : String) (v : α)
    (p : String × α) : p ∈ insertKey m k v → p ∈ m ∨ p = (k, v) := by
  induction m with
  | nil => intro h; simp [insertKey] at h; exact Or.inr h
  | cons q qs ih =>
    intro h
    by_cases hq : q.1 = k
    · rw [show insertKey (q :: qs) k v = (k, v) :: qs from by simp [insertKey, hq]] at h
      rcases List.mem_cons.mp h with e | hm
      · exact Or.inr e
      · exact Or.inl (List.mem_cons_of_mem _ hm)
    · rw [show insertKey (q :: qs) k v = q :: insertKey qs k v from by
        simp [insertKey, hq]] at h
      rcases List.mem_cons.mp h with e | hm
      · exact Or.inl (e ▸ List.mem_cons_self _ _)
      · rcases ih hm with hmem | e
        · exact Or.inl (List.mem_cons_of_mem _ hmem)
        · exact Or.inr e

theorem lookup_mem {α : Type} (m : List (String × α)) (k : String) (v : α) :
    lookup? m k = some v → (k, v) ∈ m := by
  induction m with
  | nil => intro h; simp [lookup?] at h
  | cons p ps ih =>
    intro h
    by_cases hp : p.1 = k
    · simp only [lookup?, hp, if_true, Option.some.injEq] at h
      have hpv : p = (k, v) := Prod.ext hp h
      rw [← hpv]
      exact List.mem_cons_self _ _
    · simp only [lookup?, hp, if_false] at h
      exact List.mem_cons_of_mem _ (ih h)

theorem keys_dict_ordered_subset_aux {α : Type} (d : List (String × α))
    (ks : List String) (od : List (String × α)) (k : String) :
    k ∈ keys (ks.foldl (fun od k =>
      match lookup? d k with
      | some v => insertKey od k v
      | none => od) od) → k ∈ keys od ∨ k ∈ keys d := by
  induction ks generalizing od with
  | nil => intro h; exact Or.inl h
  | cons c cs ih =>
    intro h
    simp only [List.foldl_cons] at h
    cases hc : lookup? d c with
    | none =>
      rw [hc] at h
      exact ih od h
    | some v =>
      rw [hc] at h
      rcases ih (insertKey od c v) h with hm | hm
      · rcases (mem_keys_insertKey_iff od c k v).mp hm with hm' | e
        · exact Or.inl hm'
        · exact Or.inr (e ▸ mem_keys_of_lookup d c v hc)
      · exact Or.inr hm

theorem mem_keys_dict_ordered_subset {α : Type} (d : List (String × α))
    (ks : List String) (k : String) :
    k ∈ keys (dict_ordered_subset d ks) → k ∈ keys d := by
  intro h
  rcases keys_dict_ordered_subset_aux d ks [] k h with hm | hm
  · simp [keys] at hm
  · exact hm

theorem parseStep_ok_elim (pyFloat : String → Option ℚ) (t : Table) (m : Dict)
    (qp : Elem) (m' : Dict) (t' : Table)
    (h : parseStep pyFloat t m qp = .ok (m', t')) :
    (∃ v, lookup? qp.attrib "value" = some v ∧ startsWith v "n/a" = true ∧
      m' = m ∧ t' = t) ∨
    (∃ v nm d a, lookup? qp.attrib "value" = some v ∧
      startsWith v "n/a" = false ∧
      lookup? qp.attrib "name" = some nm ∧
      lookup? qp.attrib "description" = some d ∧
      lookup? qp.attrib "accession" = some a ∧
      m' = insertKey m (subPercentage nm) (storedValue pyFloat v) ∧
      t' = insertKey t (subPercentage nm) ⟨d, some a⟩) := by
  cases hv : lookup? qp.attrib "value" with
  | none =>
    simp only [parseStep, hv] at h
    exact absurd h (by simp)
  | some v =>
    simp only [parseStep, hv] at h
    by_cases hna : startsWith v "n/a"
    · rw [if_pos hna] at h
      simp only [PRes.ok.injEq, Prod.mk.injEq] at h
      exact Or.inl ⟨v, rfl, hna, h.1.symm, h.2.symm⟩
    · rw [if_neg hna] at h
      cases hnm : lookup? qp.attrib "name" with
      | none =>
        simp only [hnm] at h
        exact absurd h (by simp)
      | some nm =>
        simp only [hnm] at h
        cases hd : lookup? qp.attrib "description" with
        | none =>
          simp only [hd] at h
          exact absurd h (by simp)
        | some d =>
          simp only [hd] at h
          cases ha : lookup? qp.attrib "accession" with
          | none =>
            simp only [ha] at h
            exact absurd h (by simp)
          | some a =>
            simp only [ha] at h
            simp only [PRes.ok.injEq, Prod.mk.injEq] at h
            exact Or.inr ⟨v, nm, d, a, rfl, Bool.eq_false_iff.mpr hna, rfl, rfl, rfl,
              h.1.symm, h.2.symm⟩

theorem parse_cons_ok (pyFloat : String → Option ℚ) (t : Table) (m : Dict)
    (qp : Elem) (qps : List Elem) (r : Dict × Table) :
    parse_qcml_elems pyFloat t m (qp :: qps) = .ok r ↔
      ∃ m₁ t₁, parseStep pyFloat t m qp = .ok (m₁, t₁) ∧
        parse_qcml_elems pyFloat t₁ m₁ qps = .ok r := by
  constructor
  · intro h
    cases hs : parseStep pyFloat t m qp with
    | err e =>
      rw [parse_qcml_elems, hs] at h
      exact absurd h (by simp)
    | ok mt =>
      obtain ⟨m₁, t₁⟩ := mt
      rw [parse_qcml_elems, hs] at h
      exact ⟨m₁, t₁, rfl, h⟩
  · rintro ⟨m₁, t₁, hs, hrest⟩
    rw [parse_qcml_elems, hs]
    exact hrest

theorem naSkipped_true_of (qp : Elem) (v : String)
    (hv : lookup? qp.attrib "value" = some v) (hna : startsWith v "n/a" = true) :
    naSkipped qp = true := by
  simp [naSkipped, hv, hna]

theorem naSkipped_false_of (qp : Elem) (v : String)
    (hv : lookup? qp.attrib "value" = some v) (hna : startsWith v "n/a" = false) :
    naSkipped qp = false := by
  simp [naSkipped, hv, hna]

theorem keys_insertKey_addNew {α : Type} (m : List (String × α)) (k : String) (v : α) :
    keys (insertKey m k v) = addNew (keys m) k := by
  by_cases hm : k ∈ keys m
  · rw [keys_insertKey_mem m k v hm, addNew, if_pos hm]
  · rw [keys_insertKey_not_mem m k v hm, addNew, if_neg hm]

theorem mem_foldl_addNew_of_mem (acc : List String) (ns : List String) (k : String)
    (h : k ∈ acc) : k ∈ ns.foldl addNew acc := by
  induction ns generalizing acc with
  | nil => exact h
  | cons n ns ih =>
    simp only [List.foldl_cons]
    refine ih (addNew acc n) ?_
    unfold addNew
    by_cases hn : n ∈ acc
    · rw [if_pos hn]; exact h
    · rw [if_neg hn]; exact List.mem_append_left _ h

theorem parse_filter_na (pyFloat : String → Option ℚ) :
    ∀ (qps : List Elem) (t : Table) (m : Dict) (r : Dict × Table),
      parse_qcml_elems pyFloat t m qps = .ok r →
      parse_qcml_elems pyFloat t m (qps.filter (fun qp => !naSkipped qp)) = .ok r := by
  intro qps
  induction qps with
  | nil => intro t m r h; simpa using h
  | cons qp qps ih =>
    intro t m r h
    rcases (parse_cons_ok pyFloat t m qp qps r).mp h with ⟨m₁, t₁, hstep, hrest⟩
    rcases parseStep_ok_elim pyFloat t m qp m₁ t₁ hstep with
      ⟨v, hv, hna, hm, ht⟩ | ⟨v, nm, d, a, hv, hna, hnm, hd, ha, hm, ht⟩
    · have hskip : naSkipped qp = true := naSkipped_true_of qp v hv hna
      rw [List.filter_cons_of_neg (by simp [hskip])]
      subst hm; subst ht
      exact ih t₁ m₁ r hrest
    · have hkeep : naSkipped qp = false := naSkipped_false_of qp v hv hna
      rw [List.filter_cons_of_pos (by simp [hkeep])]
      exact (parse_cons_ok pyFloat t m qp _ r).mpr ⟨m₁, t₁, hstep, ih t₁ m₁ r hrest⟩

theorem parse_keys_foldl (pyFloat : String → Option ℚ) :
    ∀ (qps : List Elem) (t : Table) (m : Dict) (m' : Dict) (t' : Table),
      parse_qcml_elems pyFloat t m qps = .ok (m', t') →
      keys m' = (keptKeys qps).foldl addNew (keys m) := by
  intro qps
  induction qps with
  | nil =>
    intro t m m' t' h
    simp only [parse_qcml_elems, PRes.ok.injEq, Prod.mk.injEq] at h
    simp [keptKeys, h.1]
  | cons qp qps ih =>
    intro t m m' t' h
    rcases (parse_cons_ok pyFloat t m qp qps (m', t')).mp h with ⟨m₁, t₁, hstep, hrest⟩
    rcases parseStep_ok_elim pyFloat t m qp m₁ t₁ hstep with
      ⟨v, hv, hna, hm, ht⟩ | ⟨v, nm, d, a, hv, hna, hnm, hd, ha, hm, ht⟩
    · rw [show keptKeys (qp :: qps) = keptKeys qps from by
        simp [keptKeys, hv, hna]]
      rw [← hm]
      exact ih t₁ m₁ m' t' hrest
    · rw [show keptKeys (qp :: qps) = subPercentage nm :: keptKeys qps from by
        simp [keptKeys, hv, hna, hnm]]
      rw [List.foldl_cons, ← keys_insertKey_addNew m (subPercentage nm)
        (storedValue pyFloat v), ← hm]
      exact ih t₁ m₁ m' t' hrest

theorem parse_lookup_untouched (pyFloat : String → Option ℚ) :
    ∀ (qps : List Elem) (t : Table) (m : Dict) (m' : Dict) (t' : Table) (k : String),
      parse_qcml_elems pyFloat t m qps = .ok (m', t') → k ∉ keptKeys qps →
      lookup? m' k = lookup? m k := by
  intro qps
  induction qps with
  | nil =>
    intro t m m' t' k h _
    simp only [parse_qcml_elems, PRes.ok.injEq, Prod.mk.injEq] at h
    rw [h.1]
  | cons qp qps ih =>
    intro t m m' t' k h hk
    rcases (parse_cons_ok pyFloat t m qp qps (m', t')).mp h with ⟨m₁, t₁, hstep, hrest⟩
    rcases parseStep_ok_elim pyFloat t m qp m₁ t₁ hstep with
      ⟨v, hv, hna, hm, ht⟩ | ⟨v, nm, d, a, hv, hna, hnm, hd, ha, hm, ht⟩
    · have hk' : k ∉ keptKeys qps := by
        rw [show keptKeys (qp :: qps) = keptKeys qps from by simp [keptKeys, hv, hna]] at hk
        exact hk
      rw [← hm]
      exact ih t₁ m₁ m' t' k hrest hk'
    · rw [show keptKeys (qp :: qps) = subPercentage nm :: keptKeys qps from by
        simp [keptKeys, hv, hna, hnm]] at hk
      have hne : k ≠ subPercentage nm := fun e => hk (e ▸ List.mem_cons_self _ _)
      have hk' : k ∉ keptKeys qps := fun hmem => hk (List.mem_cons_of_mem _ hmem)
      rw [ih t₁ m₁ m' t' k hrest hk', hm,
        lookup_insertKey_ne m (subPercentage nm) k (storedValue pyFloat v) hne]

theorem parse_lookup_kept (pyFloat : String → Option ℚ) :
    ∀ (qps : List Elem) (t : Table) (m : Dict) (m' : Dict) (t' : Table)
      (qp : Elem) (v nm : String),
      parse_qcml_elems pyFloat t m qps = .ok (m', t') →
      (keptKeys qps).Nodup →
      qp ∈ qps →
      lookup? qp.attrib "value" = some v →
      startsWith v "n/a" = false →
      lookup? qp.attrib "name" = some nm →
      lookup? m' (subPercentage nm) = some (storedValue pyFloat v) := by
  intro qps
  induction qps with
  | nil => intro t m m' t' qp v nm _ _ hmem; simp at hmem
  | cons q qs ih =>
    intro t m m' t' qp v nm h hnd hmem hv hna hnm
    rcases (parse_cons_ok pyFloat t m q qs (m', t')).mp h with ⟨m₁, t₁, hstep, hrest⟩
    rcases List.mem_cons.mp hmem with rfl | hmem'
    · rcases parseStep_ok_elim pyFloat t m qp m₁ t₁ hstep with
        ⟨v', hv', hna', _, _⟩ | ⟨v', nm', d, a, hv', hna', hnm', _, _, hm, _⟩
      · rw [hv] at hv'
        cases hv'
        rw [hna] at hna'
        exact absurd hna' (by simp)
      · rw [hv] at hv'
        cases hv'
        rw [hnm] at hnm'
        cases hnm'
        have hkk : keptKeys (qp :: qs) = subPercentage nm :: keptKeys qs := by
          simp [keptKeys, hv, hna, hnm]
        rw [hkk, List.nodup_cons] at hnd
        rw [parse_lookup_untouched pyFloat qs t₁ m₁ m' t' (subPercentage nm)
          hrest hnd.1, hm]
        exact lookup_insertKey_self m (subPercentage nm) (storedValue pyFloat v)
    · have hnd' : (keptKeys qs).Nodup := by
        rcases parseStep_ok_elim pyFloat t m q m₁ t₁ hstep with
          ⟨v', hv', hna', _, _⟩ | ⟨v', nm', d, a, hv', hna', hnm', _, _, _, _⟩
        · rw [show keptKeys (q :: qs) = keptKeys qs from by
            simp [keptKeys, hv', hna']] at hnd
          exact hnd
        · rw [show keptKeys (q :: qs) = subPercentage nm' :: keptKeys qs from by
            simp [keptKeys, hv', hna', hnm'], List.nodup_cons] at hnd
          exact hnd.2
      exact ih t₁ m₁ m' t' qp v nm hrest hnd' hmem' hv hna hnm

theorem parse_ok_good (pyFloat : String → Option ℚ) :
    ∀ (qps : List Elem) (t : Table) (m : Dict) (r : Dict × Table),
      parse_qcml_elems pyFloat t m qps = .ok r →
      ∀ qp ∈ qps, goodElem qp := by
  intro qps
  induction qps with
  | nil => intro t m r _ qp hmem; simp at hmem
  | cons q qs ih =>
    intro t m r h qp hmem
    rcases (parse_cons_ok pyFloat t m q qs r).mp h with ⟨m₁, t₁, hstep, hrest⟩
    rcases List.mem_cons.mp hmem with rfl | hmem'
    · rcases parseStep_ok_elim pyFloat t m qp m₁ t₁ hstep with
        ⟨v, hv, hna, _, _⟩ | ⟨v, nm, d, a, hv, hna, hnm, hd, ha, _, _⟩
      · exact ⟨v, hv, Or.inl hna⟩
      · exact ⟨v, hv, Or.inr ⟨⟨nm, hnm⟩, ⟨d, hd⟩, ⟨a, ha⟩⟩⟩
    · exact ih t₁ m₁ r hrest qp hmem'

theorem parse_mem_key (pyFloat : String → Option ℚ) :
    ∀ (qps : List Elem) (t : Table) (m : Dict) (m' : Dict) (t' : Table)
      (qp : Elem) (v nm : String),
      parse_qcml_elems pyFloat t m qps = .ok (m', t') →
      qp ∈ qps →
      lookup? qp.attrib "value" = some v →
      startsWith v "n/a" = false →
      lookup? qp.attrib "name" = some nm →
      subPercentage nm ∈ keys m' := by
  intro qps
  induction qps with
  | nil => intro t m m' t' qp v nm _ hmem; simp at hmem
  | cons q qs ih =>
    intro t m m' t' qp v nm h hmem hv hna hnm
    rcases (parse_cons_ok pyFloat t m q qs (m', t')).mp h with ⟨m₁, t₁, hstep, hrest⟩
    rcases List.mem_cons.mp hmem with rfl | hmem'
    · rcases parseStep_ok_elim pyFloat t m qp m₁ t₁ hstep with
        ⟨v', hv', hna', _, _⟩ | ⟨v', nm', d, a, hv', hna', hnm', _, _, hm, _⟩
      · rw [hv] at hv'
        cases hv'
        rw [hna] at hna'
        exact absurd hna' (by simp)
      · rw [hv] at hv'
        cases hv'
        rw [hnm] at hnm'
        cases hnm'
        have hmem₁ : subPercentage nm ∈ keys m₁ := by
          rw [hm]
          exact (mem_keys_insertKey_iff m (subPercentage nm) (subPercentage nm) _).mpr
            (Or.inr rfl)
        have hkeys := parse_keys_foldl pyFloat qs t₁ m₁ m' t' hrest
        rw [hkeys]
        exact mem_foldl_addNew_of_mem (keys m₁) (keptKeys qs) (subPercentage nm) hmem₁
    · exact ih t₁ m₁ m' t' qp v nm hrest hmem' hv hna hnm

theorem parse_table_acc (pyFloat : String → Option ℚ) :
    ∀ (qps : List Elem) (t : Table) (m : Dict) (m' : Dict) (t' : Table),
      (∀ p ∈ t, (p.2 : TableEntry).accession.isSome = true) →
      parse_qcml_elems pyFloat t m qps = .ok (m', t') →
      ∀ p ∈ t', (p.2 : TableEntry).accession.isSome = true := by
  intro qps
  induction qps with
  | nil =>
    intro t m m' t' hinv h
    simp only [parse_qcml_elems, PRes.ok.injEq, Prod.mk.injEq] at h
    rw [← h.2]
    exact hinv
  | cons q qs ih =>
    intro t m m' t' hinv h
    rcases (parse_cons_ok pyFloat t m q qs (m', t')).mp h with ⟨m₁, t₁, hstep, hrest⟩
    rcases parseStep_ok_elim pyFloat t m q m₁ t₁ hstep with
      ⟨v, hv, hna, hm, ht⟩ | ⟨v, nm, d, a, hv, hna, hnm, hd, ha, hm, ht⟩
    · refine ih t₁ m₁ m' t' ?_ hrest
      rw [ht]
      exact hinv
    · refine ih t₁ m₁ m' t' ?_ hrest
      intro p hp
      rw [ht] at hp
      rcases mem_of_mem_insertKey t (subPercentage nm) ⟨d, some a⟩ p hp with hmem | e
      · exact hinv p hmem
      · rw [e]
        rfl

theorem keys_mkHeaders (ns : String) (t : Table) : keys (mkHeaders ns t) = keys t := by
  simp [keys, mkHeaders, List.map_map, Function.comp]

theorem updateHeader_ok_keys (h : Headers) (k tag : String) (h' : Headers)
    (hok : updateHeader h k tag = .ok h') : keys h' = keys h := by
  unfold updateHeader at hok
  cases hl : lookup? h k with
  | none => rw [hl] at hok; exact absurd hok (by simp)
  | some info =>
    rw [hl] at hok
    simp only [PRes.ok.injEq] at hok
    rw [← hok]
    exact keys_insertKey_mem h k _ (mem_keys_of_lookup h k info hl)

theorem updateHeader_err (h : Headers) (k tag : String) (e : PyErr)
    (herr : updateHeader h k tag = .err e) : e = .keyError k := by
  unfold updateHeader at herr
  cases hl : lookup? h k with
  | none =>
    rw [hl] at herr
    simp only [PRes.err.injEq] at herr
    exact herr.symm
  | some info => rw [hl] at herr; exact absurd herr (by simp)

theorem updateHeader_ok_of_mem (h : Headers) (k tag : String) (hk : k ∈ keys h) :
    ∃ h', updateHeader h k tag = .ok h' := by
  rcases lookup_some_of_mem_keys h k hk with ⟨info, hl⟩
  exact ⟨_, by rw [updateHeader, hl]⟩

theorem tryUpdates_keys : ∀ (blk : List (String × String)) (h : Headers),
    keys (tryUpdates h blk) = keys h := by
  intro blk
  induction blk with
  | nil => intro h; rfl
  | cons p rest ih =>
    intro h
    obtain ⟨k, tag⟩ := p
    cases hu : updateHeader h k tag with
    | ok h' =>
      rw [show tryUpdates h ((k, tag) :: rest) = tryUpdates h' rest from by
        rw [tryUpdates, hu]]
      rw [ih h', updateHeader_ok_keys h k tag h' hu]
    | err e =>
      rw [show tryUpdates h ((k, tag) :: rest) = h from by rw [tryUpdates, hu]]

theorem requireUpdates_ok_of_mem : ∀ (reqs : List (String × String)) (h : Headers),
    (∀ p ∈ reqs, (p : String × String).1 ∈ keys h) →
    ∃ h', requireUpdates h reqs = .ok h' ∧ keys h' = keys h := by
  intro reqs
  induction reqs with
  | nil => intro h _; exact ⟨h, rfl, rfl⟩
  | cons p rest ih =>
    intro h hmem
    obtain ⟨k, tag⟩ := p
    rcases updateHeader_ok_of_mem h k tag (hmem (k, tag) (List.mem_cons_self _ _)) with
      ⟨h₁, hu⟩
    have hkeys₁ := updateHeader_ok_keys h k tag h₁ hu
    have hmem' : ∀ p ∈ rest, (p : String × String).1 ∈ keys h₁ := by
      intro q hq
      rw [hkeys₁]
      exact hmem q (List.mem_cons_of_mem _ hq)
    rcases ih h₁ hmem' with ⟨h', hreq, hkeys⟩
    refine ⟨h', ?_, by rw [hkeys, hkeys₁]⟩
    rw [requireUpdates, hu]
    exact hreq

theorem requireUpdates_err_shape : ∀ (reqs : List (String × String)) (h : Headers)
    (e : PyErr), requireUpdates h reqs = .err e → ∃ k, e = .keyError k := by
  intro reqs
  induction reqs with
  | nil => intro h e herr; exact absurd herr (by simp [requireUpdates])
  | cons p rest ih =>
    intro h e herr
    obtain ⟨k, tag⟩ := p
    cases hu : updateHeader h k tag with
    | ok h₁ =>
      rw [requireUpdates, hu] at herr
      exact ih h₁ e herr
    | err e' =>
      rw [requireUpdates, hu] at herr
      simp only [PRes.err.injEq] at herr
      exact ⟨k, by rw [← herr]; exact updateHeader_err h k tag e' hu⟩

theorem readqcHeaders_ok (t : Table)
    (hmem : ∀ p ∈ readqcRequired, (p : String × String).1 ∈ keys t) :
    ∃ h, readqcHeaders t = .ok h ∧ keys h = keys t := by
  have hmem' : ∀ p ∈ readqcRequired, (p : String × String).1 ∈ keys (mkHeaders "ReadQC" t) := by
    intro p hp
    rw [keys_mkHeaders]
    exact hmem p hp
  rcases requireUpdates_ok_of_mem readqcRequired (mkHeaders "ReadQC" t) hmem' with
    ⟨h, hreq, hkeys⟩
  exact ⟨h, hreq, by rw [hkeys, keys_mkHeaders]⟩

theorem readqcHeaders_err_shape (t : Table) (e : PyErr)
    (herr : readqcHeaders t = .err e) : ∃ k, e = .keyError k :=
  requireUpdates_err_shape readqcRequired (mkHeaders "ReadQC" t) e herr

theorem foldl_tryUpdates_keys : ∀ (blks : List (List (String × String))) (h : Headers),
    keys (blks.foldl tryUpdates h) = keys h := by
  intro blks
  induction blks with
  | nil => intro h; rfl
  | cons b bs ih =>
    intro h
    rw [List.foldl_cons, ih (tryUpdates h b), tryUpdates_keys b h]

theorem mappingqcHeaders_ok (t : Table)
    (hmem : ∀ p ∈ mappingqcRequired, (p : String × String).1 ∈ keys t) :
    ∃ h, mappingqcHeaders t = .ok h ∧ keys h = keys t := by
  have hmem' : ∀ p ∈ mappingqcRequired,
      (p : String × String).1 ∈ keys (mkHeaders "MappingQC" t) := by
    intro p hp
    rw [keys_mkHeaders]
    exact hmem p hp
  rcases requireUpdates_ok_of_mem mappingqcRequired (mkHeaders "MappingQC" t) hmem' with
    ⟨h, hreq, hkeys⟩
  refine ⟨mappingqcOptionalTry.foldl tryUpdates h, ?_, ?_⟩
  · rw [mappingqcHeaders, hreq]
  · rw [foldl_tryUpdates_keys mappingqcOptionalTry h, hkeys, keys_mkHeaders]

theorem mappingqcHeaders_err_shape (t : Table) (e : PyErr)
    (herr : mappingqcHeaders t = .err e) : ∃ k, e = .keyError k := by
  unfold mappingqcHeaders at herr
  cases hreq : requireUpdates (mkHeaders "MappingQC" t) mappingqcRequired with
  | ok h => rw [hreq] at herr; exact absurd herr (by simp)
  | err e' =>
    rw [hreq] at herr
    simp only [PRes.err.injEq] at herr
    rcases requireUpdates_err_shape mappingqcRequired (mkHeaders "MappingQC" t) e' hreq with
      ⟨k, hk⟩
    exact ⟨k, by rw [← herr]; exact hk⟩

theorem convertSample_err_shape (oldK newK : String) (kv : Dict) (e : PyErr)
    (h : convertSample oldK newK kv = .err e) :
    e = .keyError oldK ∨ e = .typeError := by
  unfold convertSample at h
  cases hl : lookup? kv oldK with
  | none =>
    rw [hl] at h
    simp only [PRes.err.injEq] at h
    exact Or.inl h.symm
  | some v =>
    rw [hl] at h
    cases v with
    | str s =>
      simp only [PRes.err.injEq] at h
      exact Or.inr h.symm
    | num q => exact absurd h (by simp)

theorem convertSample_ok_num (oldK newK : String) (kv : Dict) (q : ℚ)
    (hl : lookup? kv oldK = some (Value.num q)) :
    convertSample oldK newK kv =
      .ok (eraseKey (insertKey kv newK (Value.num (q * 1000000))) oldK) := by
  rw [convertSample, hl]

theorem convertSamples_err_shape (oldK newK : String) :
    ∀ (l : List (String × Dict)) (e : PyErr),
      convertSamples oldK newK l = .err e → e = .keyError oldK ∨ e = .typeError := by
  intro l
  induction l with
  | nil => intro e h; exact absurd h (by simp [convertSamples])
  | cons p rest ih =>
    intro e h
    obtain ⟨s, kv⟩ := p
    cases hc : convertSample oldK newK kv with
    | err e' =>
      rw [convertSamples, hc] at h
      simp only [PRes.err.injEq] at h
      exact h ▸ convertSample_err_shape oldK newK kv e' hc
    | ok kv' =>
      rw [convertSamples, hc] at h
      cases hr : convertSamples oldK newK rest with
      | err e' =>
        rw [hr] at h
        simp only [PRes.err.injEq] at h
        exact h ▸ ih e' hr
      | ok rest' => rw [hr] at h; exact absurd h (by simp)

theorem convertSamples_ok_all (oldK newK : String) :
    ∀ (l l' : List (String × Dict)),
      convertSamples oldK newK l = .ok l' →
      ∀ p ∈ l, ∃ q, lookup? (p : String × Dict).2 oldK = some (Value.num q) := by
  intro l
  induction l with
  | nil => intro l' _ p hp; simp at hp
  | cons a rest ih =>
    intro l' h p hp
    obtain ⟨s, kv⟩ := a
    cases hc : convertSample oldK newK kv with
    | err e => rw [convertSamples, hc] at h; exact absurd h (by simp)
    | ok kv' =>
      rw [convertSamples, hc] at h
      cases hr : convertSamples oldK newK rest with
      | err e => rw [hr] at h; exact absurd h (by simp)
      | ok rest' =>
        rcases List.mem_cons.mp hp with rfl | hp'
        · unfold convertSample at hc
          cases hl : lookup? kv oldK with
          | none => rw [hl] at hc; exact absurd hc (by simp)
          | some v =>
            rw [hl] at hc
            cases v with
            | str s' => exact absurd hc (by simp)
            | num q => exact ⟨q, rfl⟩
        · exact ih rest' hr p hp'

theorem convertSamples_ok_of_all (oldK newK : String) :
    ∀ (l : List (String × Dict)),
      (∀ p ∈ l, ∃ q, lookup? (p : String × Dict).2 oldK = some (Value.num q)) →
      ∃ l', convertSamples oldK newK l = .ok l' ∧
        List.Forall₂ (fun p p' => (p' : String × Dict).1 = (p : String × Dict).1 ∧
          ∀ q : ℚ, lookup? p.2 oldK = some (Value.num q) →
            p'.2 = eraseKey (insertKey p.2 newK (Value.num (q * 1000000))) oldK) l l' := by
  intro l
  induction l with
  | nil => intro _; exact ⟨[], rfl, List.Forall₂.nil⟩
  | cons a rest ih =>
    intro hall
    obtain ⟨s, kv⟩ := a
    rcases hall (s, kv) (List.mem_cons_self _ _) with ⟨q, hl⟩
    rcases ih (fun p hp => hall p (List.mem_cons_of_mem _ hp)) with ⟨rest', hr, hf⟩
    refine ⟨(s, eraseKey (insertKey kv newK (Value.num (q * 1000000))) oldK) :: rest',
      ?_, ?_⟩
    · rw [convertSamples, convertSample_ok_num oldK newK kv q hl, hr]
    · refine List.Forall₂.cons ⟨rfl, ?_⟩ hf
      intro q' hl'
      rw [hl] at hl'
      simp only [Option.some.injEq, Value.num.injEq] at hl'
      rw [hl']

theorem mbConvert_err_shape (oldK newK desc : String) (t : Table)
    (qcdata : List (String × Dict)) (e : PyErr)
    (h : mbConvert oldK newK desc t qcdata = .err e) :
    e = .keyError oldK ∨ e = .typeError := by
  unfold mbConvert at h
  by_cases ht : hasKey t oldK
  · rw [if_pos ht] at h
    cases hc : convertSamples oldK newK qcdata with
    | err e' =>
      rw [hc] at h
      simp only [PRes.err.injEq] at h
      exact h ▸ convertSamples_err_shape oldK newK qcdata e' hc
    | ok l' => rw [hc] at h; exact absurd h (by simp)
  · rw [if_neg ht] at h
    simp only [PRes.err.injEq] at h
    exact Or.inl h.symm

theorem mbConvert_ok (oldK newK desc : String) (t : Table)
    (qcdata : List (String × Dict))
    (ht : hasKey t oldK = true)
    (hall : ∀ p ∈ qcdata, ∃ q, lookup? (p : String × Dict).2 oldK = some (Value.num q)) :
    ∃ l', mbConvert oldK newK desc t qcdata =
        .ok (insertKey (eraseKey t oldK) newK ⟨desc, none⟩, l') ∧
      List.Forall₂ (fun p p' => (p' : String × Dict).1 = (p : String × Dict).1 ∧
        ∀ q : ℚ, lookup? p.2 oldK = some (Value.num q) →
          p'.2 = eraseKey (insertKey p.2 newK (Value.num (q * 1000000))) oldK)
        qcdata l' := by
  rcases convertSamples_ok_of_all oldK newK qcdata hall with ⟨l', hc, hf⟩
  exact ⟨l', by rw [mbConvert, if_pos ht, hc], hf⟩

theorem mbConvert_ok_elim (oldK newK desc : String) (t : Table)
    (qcdata : List (String × Dict)) (t' : Table) (l' : List (String × Dict))
    (h : mbConvert oldK newK desc t qcdata = .ok (t', l')) :
    hasKey t oldK = true ∧ convertSamples oldK newK qcdata = .ok l' ∧
      t' = insertKey (eraseKey t oldK) newK ⟨desc, none⟩ := by
  unfold mbConvert at h
  by_cases ht : hasKey t oldK
  · rw [if_pos ht] at h
    cases hc : convertSamples oldK newK qcdata with
    | err e => rw [hc] at h; exact absurd h (by simp)
    | ok l'' =>
      rw [hc] at h
      simp only [PRes.ok.injEq, Prod.mk.injEq] at h
      exact ⟨ht, by rw [h.2], h.1.symm⟩
  · rw [if_neg ht] at h
    exact absurd h (by simp)

theorem hasKey_iff_mem {α : Type} (m : List (String × α)) (k : String) :
    hasKey m k = true ↔ k ∈ keys m := by
  unfold hasKey
  cases hl : lookup? m k with
  | none =>
    simp only [Option.isSome_none, Bool.false_eq_true, false_iff]
    exact (lookup_none_iff m k).mp hl
  | some v =>
    simp only [Option.isSome_some, true_iff]
    exact mem_keys_of_lookup m k v hl

theorem mem_keys_eraseKey_of_ne {α : Type} (m : List (String × α)) (k k' : String)
    (h : k' ∈ keys m) (hne : k' ≠ k) : k' ∈ keys (eraseKey m k) := by
  rcases lookup_some_of_mem_keys m k' h with ⟨v, hv⟩
  refine mem_keys_of_lookup (eraseKey m k) k' v ?_
  rw [lookup_eraseKey_ne m k k' hne]
  exact hv

theorem parsePhase_acc (pyFloat : String → Option ℚ) :
    ∀ (files : Files) (qcdata : List (String × Dict)) (t : Table)
      (qcdata' : List (String × Dict)) (t' : Table),
      (∀ p ∈ t, (p.2 : TableEntry).accession.isSome = true) →
      parsePhase pyFloat files qcdata t = .ok (qcdata', t') →
      ∀ p ∈ t', (p.2 : TableEntry).accession.isSome = true := by
  intro files
  induction files with
  | nil =>
    intro qcdata t qcdata' t' hinv h
    simp only [parsePhase, PRes.ok.injEq, Prod.mk.injEq] at h
    rw [← h.2]
    exact hinv
  | cons f fs ih =>
    intro qcdata t qcdata' t' hinv h
    obtain ⟨s, qps⟩ := f
    cases hp : parse_qcml_elems pyFloat t [] qps with
    | err e => rw [parsePhase, hp] at h; exact absurd h (by simp)
    | ok mt =>
      obtain ⟨m, t₁⟩ := mt
      rw [parsePhase, hp] at h
      exact ih (insertKey qcdata s m) t₁ qcdata' t'
        (parse_table_acc pyFloat qps t [] m t₁ hinv hp) h

theorem descAccession_ok (t : Table) (k : String) (e : TableEntry) (a : String)
    (hl : lookup? t k = some e) (ha : e.accession = some a) :
    descAccession t k = .ok e.description := by
  simp only [descAccession, hl, ha]

theorem keys_singleton {α : Type} (k : String) (v : α) : keys [(k, v)] = [k] := rfl

theorem covSingletons_ok (h : Headers) :
    ∀ (ks : List String), (∀ k ∈ ks, k ∈ keys h) →
    ∃ lst, covSingletons h ks = .ok lst ∧
      ∀ tbl ∈ lst, ∃ k v, k ∈ ks ∧ tbl = [(k, v)] := by
  intro ks
  induction ks with
  | nil => intro _; exact ⟨[], rfl, by simp⟩
  | cons k krest ih =>
    intro hmem
    rcases lookup_some_of_mem_keys h k (hmem k (List.mem_cons_self _ _)) with ⟨v, hv⟩
    rcases ih (fun k' hk' => hmem k' (List.mem_cons_of_mem _ hk')) with ⟨lst, hok, hall⟩
    refine ⟨[(k, v)] :: lst, ?_, ?_⟩
    · rw [covSingletons, hv, hok]
    · intro tbl htbl
      rcases List.mem_cons.mp htbl with rfl | htbl'
      · exact ⟨k, v, List.mem_cons_self _ _, rfl⟩
      · rcases hall tbl htbl' with ⟨k', v', hk', he⟩
        exact ⟨k', v', List.mem_cons_of_mem _ hk', he⟩

theorem covSingletons_err (h : Headers) :
    ∀ (ks : List String) (k : String), k ∈ ks → k ∉ keys h →
    (∀ k' ∈ ks, k' ∈ keys h ∨ k' = k) →
    ∃ k'', covSingletons h ks = .err (.keyError k'') ∧ k'' ∉ keys h := by
  intro ks
  induction ks with
  | nil => intro k hk; simp at hk
  | cons c crest ih =>
    intro k hk hnk hall
    by_cases hc : c ∈ keys h
    · rcases lookup_some_of_mem_keys h c hc with ⟨v, hv⟩
      have hk' : k ∈ crest := by
        rcases List.mem_cons.mp hk with rfl | hk'
        · exact absurd hc hnk
        · exact hk'
      rcases ih k hk' hnk (fun k'' hk'' => hall k'' (List.mem_cons_of_mem _ hk'')) with
        ⟨k'', herr, hnk''⟩
      refine ⟨k'', ?_, hnk''⟩
      rw [covSingletons, hv, herr]
    · refine ⟨c, ?_, hc⟩
      have hl : lookup? h c = none := (lookup_none_iff h c).mpr hc
      rw [covSingletons, hl]

theorem matchLit_append : ∀ (p r : List Char), matchLit p (p ++ r) = some r := by
  intro p
  induction p with
  | nil => intro r; rfl
  | cons c cs ih => intro r; simp [matchLit, ih r]

theorem matchLit_head_ne (c d : Char) (cs ds : List Char) (h : ¬ (c = d)) :
    matchLit (c :: cs) (d :: ds) = none := by
  simp [matchLit, h]

theorem takeWhile_digits (ds tail : List Char) (h : ds.all isDigitDot = true) :
    (ds ++ ' ' :: tail).takeWhile isDigitDot = ds ∧
    (ds ++ ' ' :: tail).dropWhile isDigitDot = ' ' :: tail := by
  induction ds with
  | nil =>
    constructor
    · simp [List.takeWhile_cons, show isDigitDot ' ' = false from by decide]
    · simp [List.dropWhile_cons, show isDigitDot ' ' = false from by decide]
  | cons c cs ih =>
    simp only [List.all_cons, Bool.and_eq_true] at h
    rcases ih h.2 with ⟨h1, h2⟩
    constructor
    · simp [List.takeWhile_cons, h.1, h1]
    · simp [List.dropWhile_cons, h.1, h2]

theorem matchSev_form (sev rest : List Char)
    (hsev : sev = "low".data ∨ sev = "moderate".data ∨ sev = "high".data) :
    matchSev (sev ++ rest) = some rest := by
  rcases hsev with rfl | rfl | rfl
  · rw [matchSev, matchLit_append]
  · have h1 : matchLit "low".data ("moderate".data ++ rest) = none := by
      rw [show "moderate".data ++ rest = 'm' :: ("oderate".data ++ rest) from by
        rw [show "moderate".data = 'm' :: "oderate".data from by decide]; rfl]
      rw [show "low".data = 'l' :: "ow".data from by decide]
      exact matchLit_head_ne 'l' 'm' _ _ (by decide)
    rw [matchSev, h1, matchLit_append]
  · have h1 : matchLit "low".data ("high".data ++ rest) = none := by
      rw [show "high".data ++ rest = 'h' :: ("igh".data ++ rest) from by
        rw [show "high".data = 'h' :: "igh".data from by decide]; rfl]
      rw [show "low".data = 'l' :: "ow".data from by decide]
      exact matchLit_head_ne 'l' 'h' _ _ (by decide)
    have h2 : matchLit "moderate".data ("high".data ++ rest) = none := by
      rw [show "high".data ++ rest = 'h' :: ("igh".data ++ rest) from by
        rw [show "high".data = 'h' :: "igh".data from by decide]; rfl]
      rw [show "moderate".data = 'm' :: "oderate".data from by decide]
      exact matchLit_head_ne 'm' 'h' _ _ (by decide)
    rw [matchSev, h1, h2, matchLit_append]

theorem matchLit_self (p : List Char) : matchLit p p = some [] := by
  have h := matchLit_append p []
  rwa [List.append_nil] at h

theorem matchRateAt_form (sev ds : List Char)
    (hsev : sev = "low".data ∨ sev = "moderate".data ∨ sev = "high".data)
    (hds : ds ≠ []) (hdig : ds.all isDigitDot = true) :
    matchRateAt (sev ++ " (".data ++ (ds ++ " var/Mb)".data)) = some [] := by
  have hsp : " var/Mb)".data = ' ' :: "var/Mb)".data := by decide
  have hsev' : matchSev (sev ++ " (".data ++ (ds ++ " var/Mb)".data)) =
      some (" (".data ++ (ds ++ " var/Mb)".data)) := by
    rw [List.append_assoc]
    exact matchSev_form sev _ hsev
  simp only [matchRateAt, hsev', matchLit_append]
  rcases takeWhile_digits ds ['v', 'a', 'r', '/', 'M', 'b', ')'] hdig with ⟨h1, h2⟩
  rw [h1, h2]
  have hne : ds.isEmpty = false := by
    cases ds with
    | nil => exact absurd rfl hds
    | cons c cs => rfl
  rw [if_neg (by simp [hne])]
  exact matchLit_self _

theorem subRateAux_nil : ∀ f : Nat, subRateAux f [] = [] := by
  intro f
  cases f with
  | zero => rfl
  | succ f' => rfl

theorem subRate_form (s : String) (sev ds : List Char)
    (hsev : sev = "low".data ∨ sev = "moderate".data ∨ sev = "high".data)
    (hds : ds ≠ []) (hdig : ds.all isDigitDot = true)
    (hs : s.data = sev ++ " (".data ++ (ds ++ " var/Mb)".data)) :
    subRate s = "\x02" := by
  have hmatch := matchRateAt_form sev ds hsev hds hdig
  have hne : s.data ≠ [] := by
    rw [hs]
    rcases hsev with rfl | rfl | rfl <;> simp
  unfold subRate
  cases hd : s.data with
  | nil => exact absurd hd hne
  | cons c cs =>
    rw [show subRateAux (c :: cs).length (c :: cs) =
        match matchRateAt (c :: cs) with
        | some rest => chr2 :: subRateAux cs.length rest
        | none => c :: subRateAux cs.length cs from rfl]
    have hcs : c :: cs = sev ++ " (".data ++ (ds ++ " var/Mb)".data) := by
      rw [← hd, hs]
    rw [hcs, hmatch]
    show String.mk (chr2 :: subRateAux cs.length []) = "\x02"
    rw [subRateAux_nil]
    decide

theorem somaticRateStep_pops (pyFloat : String → Option ℚ) (kv : Dict) (s : String)
    (hl : lookup? kv "somatic variant rate" = some (Value.str s))
    (hsub : pyFloat (subRate s) = none) :
    somaticRateStep pyFloat kv = .ok (eraseKey kv "somatic variant rate") := by
  simp only [somaticRateStep, hl, hsub]

theorem readqc_init_empty (pyFloat : String → Option ℚ) (ign : String → Bool)
    (files : Files) (q0 : List (String × Dict)) (t0 : Table)
    (hp : parsePhase pyFloat files [] [] = .ok (q0, t0))
    (he : ignoreSamples ign q0 = []) :
    readqc_init pyFloat ign files = .err .userWarning := by
  simp only [readqc_init, hp, he, List.isEmpty_nil, if_true]

theorem mappingqc_init_empty (pyFloat : String → Option ℚ) (ign : String → Bool)
    (files : Files) (q0 : List (String × Dict)) (t0 : Table)
    (hp : parsePhase pyFloat files [] [] = .ok (q0, t0))
    (he : ignoreSamples ign q0 = []) :
    mappingqc_init pyFloat ign files = .err .userWarning := by
  simp only [mappingqc_init, hp, he, List.isEmpty_nil, if_true]

theorem readqc_init_eval (pyFloat : String → Option ℚ) (ign : String → Bool)
    (files : Files) (q0 : List (String × Dict)) (t0 : Table)
    (hp : parsePhase pyFloat files [] [] = .ok (q0, t0))
    (hne : (ignoreSamples ign q0).isEmpty = false) :
    readqc_init pyFloat ign files =
      (match mbConvert "bases sequenced (MB)" "bases sequenced"
          "Bases sequenced in total." t0 (ignoreSamples ign q0) with
       | .err e => .err e
       | .ok (t1, qcdata2) =>
         match readqcHeaders t1 with
         | .err e => .err e
         | .ok h => .ok ⟨qcdata2, dict_ordered_subset h readqcGeneralCols, h⟩) := by
  simp only [readqc_init, hp, hne, Bool.false_eq_true, if_false]

theorem mappingqc_init_eval (pyFloat : String → Option ℚ) (ign : String → Bool)
    (files : Files) (q0 : List (String × Dict)) (t0 : Table)
    (hp : parsePhase pyFloat files [] [] = .ok (q0, t0))
    (hne : (ignoreSamples ign q0).isEmpty = false) :
    mappingqc_init pyFloat ign files =
      (match mbConvert "bases usable (MB)" "bases usable"
          "Bases sequenced in total." t0 (ignoreSamples ign q0) with
       | .err e => .err e
       | .ok (t1, qcdata2) =>
         match mappingqcHeaders t1 with
         | .err e => .err e
         | .ok h =>
           if hasKey h "target region 10x %" then
             match make_description t1 ["target region read depth"] with
             | .err e => .err e
             | .ok d =>
               match covSingletons h (coverageValues.map covKey) with
               | .err e => .err e
               | .ok lst =>
                 .ok ⟨qcdata2, dict_ordered_subset h mappingqcGeneralCols,
                      dict_ordered_subset h mappingqcOverviewCols,
                      some ⟨dict_ordered_subset h mappingqcCoverageCols, d,
                            dict_ordered_subset h ["target region read depth"], lst⟩⟩
           else .ok ⟨qcdata2, dict_ordered_subset h mappingqcGeneralCols,
                     dict_ordered_subset h mappingqcOverviewCols, none⟩) := by
  simp only [mappingqc_init, hp, hne, Bool.false_eq_true, if_false]

theorem readqc_init_ne_userWarning (pyFloat : String → Option ℚ) (ign : String → Bool)
    (files : Files) (q0 : List (String × Dict)) (t0 : Table)
    (hp : parsePhase pyFloat files [] [] = .ok (q0, t0))
    (hne : ignoreSamples ign q0 ≠ []) :
    readqc_init pyFloat ign files ≠ .err .userWarning := by
  have hie : (ignoreSamples ign q0).isEmpty = false := by
    cases hq : ignoreSamples ign q0 with
    | nil => exact absurd hq hne
    | cons a l => rfl
  rw [readqc_init_eval pyFloat ign files q0 t0 hp hie]
  cases hmb : mbConvert "bases sequenced (MB)" "bases sequenced"
      "Bases sequenced in total." t0 (ignoreSamples ign q0) with
  | err e =>
    intro hcontra
    simp only [PRes.err.injEq] at hcontra
    rcases mbConvert_err_shape _ _ _ _ _ e hmb with h1 | h1 <;>
      (rw [hcontra] at h1; exact PyErr.noConfusion h1)
  | ok tl =>
    obtain ⟨t1, q2⟩ := tl
    show (match readqcHeaders t1 with
      | PRes.err e => PRes.err e
      | PRes.ok h =>
        PRes.ok (ReadQCOut.mk q2 (dict_ordered_subset h readqcGeneralCols) h)) ≠
      PRes.err PyErr.userWarning
    cases hh : readqcHeaders t1 with
    | err e =>
      show PRes.err e ≠ PRes.err PyErr.userWarning
      intro hcontra
      simp only [PRes.err.injEq] at hcontra
      rcases readqcHeaders_err_shape t1 e hh with ⟨k, hk⟩
      rw [hcontra] at hk
      exact PyErr.noConfusion hk
    | ok h =>
      show PRes.ok (ReadQCOut.mk q2 (dict_ordered_subset h readqcGeneralCols) h) ≠
        PRes.err PyErr.userWarning
      intro hcontra
      exact PRes.noConfusion hcontra

theorem readqc_init_err_of_empty_sample (pyFloat : String → Option ℚ)
    (ign : String → Bool) (files : Files) (q0 : List (String × Dict)) (t0 : Table)
    (s : String)
    (hp : parsePhase pyFloat files [] [] = .ok (q0, t0))
    (hs : (s, ([] : Dict)) ∈ ignoreSamples ign q0) :
    ∃ e, readqc_init pyFloat ign files = .err e ∧ e ≠ .userWarning := by
  have hne : ignoreSamples ign q0 ≠ [] := List.ne_nil_of_mem hs
  have hie : (ignoreSamples ign q0).isEmpty = false := by
    cases hq : ignoreSamples ign q0 with
    | nil => exact absurd hq hne
    | cons a l => rfl
  rw [readqc_init_eval pyFloat ign files q0 t0 hp hie]
  cases hmb : mbConvert "bases sequenced (MB)" "bases sequenced"
      "Bases sequenced in total." t0 (ignoreSamples ign q0) with
  | err e =>
    refine ⟨e, rfl, ?_⟩
    intro hcontra
    rcases mbConvert_err_shape _ _ _ _ _ e hmb with h1 | h1 <;>
      (rw [hcontra] at h1; exact PyErr.noConfusion h1)
  | ok tl =>
    exfalso
    obtain ⟨t1, q2⟩ := tl
    rcases mbConvert_ok_elim _ _ _ _ _ _ _ hmb with ⟨_, hconv, _⟩
    rcases convertSamples_ok_all _ _ _ _ hconv (s, ([] : Dict)) hs with ⟨q, hlq⟩
    exact Option.noConfusion hlq

/-- C1: for every qcML input parsed by parse_qcml, a qualityParameter element
whose value attribute begins with the literal prefix n/a contributes no entry
to the returned per-sample mapping (nor to the description table): removing
all such elements from the document leaves the parse result unchanged. -/
theorem claim_C1 (pyFloat : String → Option ℚ) (t : Table) (m : Dict)
    (qps : List Elem) (r : Dict × Table)
    (h : parse_qcml_elems pyFloat t m qps = .ok r) :
    parse_qcml_elems pyFloat t m (qps.filter (fun qp => !naSkipped qp)) = .ok r :=
  parse_filter_na pyFloat qps t m r h

theorem claim_C1_witness :
    parse_qcml_elems pyFloatSimple [] []
      (List.filter (fun qp => !naSkipped qp)
        [mkElem "read count" "5" "d1" "a1",
         mkElem "insert size" "n/a (no paired reads)" "d2" "a2"]) =
      .ok ([("read count", Value.num ((5 : ℕ) : ℚ))],
           [("read count", ⟨"d1", some "a1"⟩)]) :=
  claim_C1 pyFloatSimple [] [] _ _ rfl

/-- C2 counterexample: the claim says a name not ending in " percentage" is
used unchanged as the key, but Python re.sub with pattern " percentage$" also
matches just before a trailing newline: the name "a percentage\n" (reachable
through an XML character reference in the attribute) does not end in
" percentage" yet is stored under the rewritten key "a %\n". -/
theorem claim_C2_counterexample :
    endsWith "a percentage\n" " percentage" = false ∧
    parse_qcml_elems pyFloatSimple [] []
        [mkElem "a percentage\n" "200" "d" "a"] =
      .ok ([("a %\n", Value.num ((200 : ℕ) : ℚ))], [("a %\n", ⟨"d", some "a"⟩)]) ∧
    ("a %\n" : String) ≠ "a percentage\n" :=
  ⟨by decide, rfl, by decide⟩

/-- C2 amended: for every qualityParameter processed by parse_qcml (value not
starting with n/a), the key in the mapping is the name with a trailing
" percentage" replaced by " %", where the suffix is also replaced when it
stands immediately before a single final newline (the newline is kept); any
other name is used unchanged.  The key is present in the returned mapping. -/
theorem claim_C2_amended (pyFloat : String → Option ℚ) (t : Table)
    (qps : List Elem) (m' : Dict) (t' : Table) (qp : Elem) (v nm : String)
    (h : parse_qcml_elems pyFloat t [] qps = .ok (m', t'))
    (hmem : qp ∈ qps)
    (hv : lookup? qp.attrib "value" = some v)
    (hna : startsWith v "n/a" = false)
    (hnm : lookup? qp.attrib "name" = some nm) :
    subPercentage nm ∈ keys m' ∧
    subPercentage nm =
      (if endsWith nm " percentage" then dropRightS nm 11 ++ " %"
       else if endsWith nm " percentage\n" then dropRightS nm 12 ++ " %\n"
       else nm) :=
  ⟨parse_mem_key pyFloat qps t [] m' t' qp v nm h hmem hv hna hnm, rfl⟩

theorem claim_C2_amended_witness :
    ("mapped read %" : String) ∈
      keys (([("mapped read %", Value.num ((97 : ℕ) : ℚ))] : Dict)) ∧
    subPercentage "mapped read percentage" =
      (if endsWith "mapped read percentage" " percentage"
       then dropRightS "mapped read percentage" 11 ++ " %"
       else if endsWith "mapped read percentage" " percentage\n"
       then dropRightS "mapped read percentage" 12 ++ " %\n"
       else "mapped read percentage") :=
  claim_C2_amended pyFloatSimple [] [mkElem "mapped read percentage" "97" "d" "a"]
    [("mapped read %", Value.num ((97 : ℕ) : ℚ))]
    [("mapped read %", ⟨"d", some "a"⟩)]
    (mkElem "mapped read percentage" "97" "d" "a") "97" "mapped read percentage"
    rfl (List.mem_singleton.mpr rfl) rfl rfl rfl

/-- C3: for every kept qualityParameter (under the schema invariant that
normalized names are unique within a document), the stored value is the float
conversion of the value attribute when it parses and the original string
otherwise; a key contributed by no element is absent, so present-as-number,
present-as-string and missing-key are three distinguishable outcomes. -/
theorem claim_C3 (pyFloat : String → Option ℚ) (t : Table) (qps : List Elem)
    (m' : Dict) (t' : Table)
    (h : parse_qcml_elems pyFloat t [] qps = .ok (m', t'))
    (hnd : (keptKeys qps).Nodup) :
    (∀ qp ∈ qps, ∀ v nm, lookup? qp.attrib "value" = some v →
      startsWith v "n/a" = false → lookup? qp.attrib "name" = some nm →
      lookup? m' (subPercentage nm) = some (storedValue pyFloat v)) ∧
    (∀ k, k ∉ keptKeys qps → lookup? m' k = none) := by
  constructor
  · intro qp hmem v nm hv hna hnm
    exact parse_lookup_kept pyFloat qps t [] m' t' qp v nm h hnd hmem hv hna hnm
  · intro k hk
    rw [parse_lookup_untouched pyFloat qps t [] m' t' k h hk]
    rfl

theorem claim_C3_witness :
    lookup? ([("insert size", Value.num ((210 : ℕ) : ℚ)),
              ("note", Value.str "NA_TEXT")] : Dict) "insert size" =
      some (storedValue pyFloatSimple "210") ∧
    lookup? ([("insert size", Value.num ((210 : ℕ) : ℚ)),
              ("note", Value.str "NA_TEXT")] : Dict) "note" =
      some (storedValue pyFloatSimple "NA_TEXT") ∧
    lookup? ([("insert size", Value.num ((210 : ℕ) : ℚ)),
              ("note", Value.str "NA_TEXT")] : Dict) "somatic variant rate" = none := by
  have h := claim_C3 pyFloatSimple []
    [mkElem "insert size" "210" "d1" "a1", mkElem "note" "NA_TEXT" "d2" "a2"]
    [("insert size", Value.num ((210 : ℕ) : ℚ)), ("note", Value.str "NA_TEXT")]
    [("insert size", ⟨"d1", some "a1"⟩), ("note", ⟨"d2", some "a2"⟩)]
    rfl (by decide)
  refine ⟨?_, ?_, h.2 "somatic variant rate" (by decide)⟩
  · exact h.1 (mkElem "insert size" "210" "d1" "a1") (by decide) "210" "insert size"
      rfl rfl rfl
  · exact h.1 (mkElem "note" "NA_TEXT" "d2" "a2") (by decide) "NA_TEXT" "note"
      rfl rfl rfl

/-- C9: the insertion order of the keys of the mapping returned by parse_qcml
is the document order of the qualityParameter elements, n/a-skipped elements
excepted; a repeated normalized name keeps the position of its first
occurrence (Python dict update in place). -/
theorem claim_C9 (pyFloat : String → Option ℚ) (t : Table) (qps : List Elem)
    (m' : Dict) (t' : Table)
    (h : parse_qcml_elems pyFloat t [] qps = .ok (m', t')) :
    keys m' = dedupFirst (keptKeys qps) := by
  have hk := parse_keys_foldl pyFloat qps t [] m' t' h
  rw [hk]
  rfl

theorem claim_C9_witness :
    keys ([("gc content %", Value.num ((2 : ℕ) : ℚ)),
           ("read length", Value.str "NA")] : Dict) =
      dedupFirst (keptKeys
        [mkElem "gc content %" "1" "d" "x",
         mkElem "Q20 read %" "n/a (y)" "d" "x",
         mkElem "gc content %" "2" "d" "x",
         mkElem "read length" "NA" "d" "x"]) :=
  claim_C9 pyFloatSimple []
    [mkElem "gc content %" "1" "d" "x",
     mkElem "Q20 read %" "n/a (y)" "d" "x",
     mkElem "gc content %" "2" "d" "x",
     mkElem "read length" "NA" "d" "x"]
    [("gc content %", Value.num ((2 : ℕ) : ℚ)), ("read length", Value.str "NA")]
    [("gc content %", ⟨"d", some "x"⟩), ("read length", ⟨"d", some "x"⟩)]
    rfl

/-- C6 counterexample: the claim says an element missing any of the name,
value, description or accession attributes makes parse_qcml raise, but an
element whose value starts with n/a is skipped before the other attributes
are ever read: this element carries only a value attribute, lacks name,
description and accession, and parse_qcml still returns a mapping. -/
theorem claim_C6_counterexample :
    lookup? (Elem.mk [("value", "n/a (no target region)")]).attrib "name" = none ∧
    lookup? (Elem.mk [("value", "n/a (no target region)")]).attrib "description" = none ∧
    lookup? (Elem.mk [("value", "n/a (no target region)")]).attrib "accession" = none ∧
    parse_qcml_elems pyFloatSimple [] []
      [Elem.mk [("value", "n/a (no target region)")]] = .ok ([], []) :=
  ⟨rfl, rfl, rfl, rfl⟩

/-- C6 amended: parse_qcml catches nothing: a failure of the XML library
propagates unchanged, and an element that is not processable without raising
(value attribute missing, or value not starting with n/a while name,
description or accession is missing) prevents parse_qcml from returning a
mapping; an element whose value starts with n/a is skipped without reading
the other attributes. -/
theorem claim_C6_amended :
    (∀ (xmlFindall : String → PRes (List Elem)) (pyFloat : String → Option ℚ)
      (t : Table) (contents : String) (e : PyErr),
      xmlFindall contents = .err e →
      parse_qcml xmlFindall pyFloat t contents = .err e) ∧
    (∀ (pyFloat : String → Option ℚ) (t : Table) (m : Dict) (qps : List Elem)
      (qp : Elem), qp ∈ qps → ¬ goodElem qp →
      ∀ r, parse_qcml_elems pyFloat t m qps ≠ .ok r) := by
  constructor
  · intro xf pyF t contents e he
    rw [parse_qcml, he]
  · intro pyF t m qps qp hmem hbad r hok
    exact hbad (parse_ok_good pyF qps t m r hok qp hmem)

theorem claim_C6_witness :
    parse_qcml xmlFailing pyFloatSimple [] "<qcml" = .err (.xmlError "<qcml") ∧
    parse_qcml_elems pyFloatSimple [] [] [Elem.mk [("name", "x")]] ≠
      .ok ([], []) := by
  constructor
  · exact claim_C6_amended.1 xmlFailing pyFloatSimple [] "<qcml"
      (.xmlError "<qcml") rfl
  · refine claim_C6_amended.2 pyFloatSimple [] [] [Elem.mk [("name", "x")]]
      (Elem.mk [("name", "x")]) (List.mem_singleton.mpr rfl) ?_ ([], [])
    rintro ⟨v, hv, -⟩
    rw [show lookup? (Elem.mk [("name", "x")]).attrib "value" = none from rfl] at hv
    exact Option.noConfusion hv

/-- C5: when zero samples remain after parsing and sample filtering, the
ReadQC and MappingQC modules raise UserWarning (the non-fatal no-data signal
of the host framework) and produce no report output. -/
theorem claim_C5 (pyFloat : String → Option ℚ) (ignR ignM : String → Bool)
    (filesR filesM : Files) (qR qM : List (String × Dict)) (tR tM : Table)
    (hpR : parsePhase pyFloat filesR [] [] = .ok (qR, tR))
    (hpM : parsePhase pyFloat filesM [] [] = .ok (qM, tM))
    (heR : ignoreSamples ignR qR = [])
    (heM : ignoreSamples ignM qM = []) :
    readqc_init pyFloat ignR filesR = .err .userWarning ∧
    mappingqc_init pyFloat ignM filesM = .err .userWarning :=
  ⟨readqc_init_empty pyFloat ignR filesR qR tR hpR heR,
   mappingqc_init_empty pyFloat ignM filesM qM tM hpM heM⟩

theorem claim_C5_witness :
    readqc_init pyFloatSimple (fun _ => false) [] = .err .userWarning ∧
    mappingqc_init pyFloatSimple (fun _ => false) [] = .err .userWarning :=
  claim_C5 pyFloatSimple (fun _ => false) (fun _ => false) [] [] [] [] [] []
    rfl rfl rfl rfl

/-- C4 counterexample: the claim says a sample with zero extracted quality
parameters makes the module abort as "no data found", but the no-data branch
(raise UserWarning) fires only when zero samples remain; a run consisting of
one sample with zero parameters passes that check and aborts later with an
uncaught KeyError in the bases-sequenced conversion instead. -/
theorem claim_C4_counterexample :
    readqc_init pyFloatSimple (fun _ => false) [("sample1", [])] =
      .err (.keyError "bases sequenced (MB)") ∧
    PyErr.keyError "bases sequenced (MB)" ≠ PyErr.userWarning :=
  ⟨rfl, by decide⟩

/-- C4 amended: the "no data found" abort (UserWarning) of ReadQC happens
exactly when zero samples remain after parsing and filtering; a surviving
sample with zero extracted parameters does not trigger it, and instead the
module still aborts, but through an uncaught KeyError or TypeError raised by
the bases-sequenced conversion. -/
theorem claim_C4_amended (pyFloat : String → Option ℚ) (ign : String → Bool)
    (files : Files) (q0 : List (String × Dict)) (t0 : Table) (s : String)
    (hp : parsePhase pyFloat files [] [] = .ok (q0, t0)) :
    (readqc_init pyFloat ign files = .err .userWarning ↔
      ignoreSamples ign q0 = []) ∧
    ((s, ([] : Dict)) ∈ ignoreSamples ign q0 →
      ∃ e, readqc_init pyFloat ign files = .err e ∧ e ≠ .userWarning) := by
  refine ⟨⟨?_, ?_⟩, ?_⟩
  · intro h
    by_contra hne
    exact readqc_init_ne_userWarning pyFloat ign files q0 t0 hp hne h
  · intro he
    exact readqc_init_empty pyFloat ign files q0 t0 hp he
  · intro hs
    exact readqc_init_err_of_empty_sample pyFloat ign files q0 t0 s hp hs

theorem claim_C4_amended_witness :
    (readqc_init pyFloatSimple (fun _ => false) [("sample1", [])] =
        .err .userWarning ↔
      ignoreSamples (fun _ => false) [("sample1", ([] : Dict))] = []) :=
  (claim_C4_amended pyFloatSimple (fun _ => false) [("sample1", [])]
    [("sample1", ([] : Dict))] [] "sample1" rfl).1

/-- C10: in SomaticQC, a somatic variant rate value of the annotated form
low, moderate or high followed by a parenthesized rate is removed from the
sample mapping by the post-processing step rather than stored as the numeric
rate: the replacement string of the re.sub call is written without a raw
prefix, so it denotes the control character U+0002 instead of a backreference
to group 2, and the following float conversion therefore raises ValueError,
whose handler pops the key. -/
theorem claim_C10 (pyFloat : String → Option ℚ) (kv : Dict) (sev ds : List Char)
    (s : String)
    (hnd : (keys kv).Nodup)
    (hsev : sev = "low".data ∨ sev = "moderate".data ∨ sev = "high".data)
    (hds : ds ≠ []) (hdig : ds.all isDigitDot = true)
    (hs : s.data = sev ++ " (".data ++ (ds ++ " var/Mb)".data))
    (hl : lookup? kv "somatic variant rate" = some (Value.str s))
    (hfl : pyFloat "\x02" = none) :
    somaticRateStep pyFloat kv = .ok (eraseKey kv "somatic variant rate") ∧
    lookup? (eraseKey kv "somatic variant rate") "somatic variant rate" = none := by
  have hsub : subRate s = "\x02" := subRate_form s sev ds hsev hds hdig hs
  constructor
  · refine somaticRateStep_pops pyFloat kv s hl ?_
    rw [hsub]
    exact hfl
  · exact lookup_eraseKey_self kv "somatic variant rate" hnd

theorem claim_C10_witness :
    somaticRateStep pyFloatSimple
        [("sample correlation", Value.num ((1 : ℕ) : ℚ)),
         ("somatic variant rate", Value.str "low (23.4 var/Mb)")] =
      .ok [("sample correlation", Value.num ((1 : ℕ) : ℚ))] ∧
    lookup? ([("sample correlation", Value.num ((1 : ℕ) : ℚ))] : Dict)
      "somatic variant rate" = none := by
  have h := claim_C10 pyFloatSimple
    [("sample correlation", Value.num ((1 : ℕ) : ℚ)),
     ("somatic variant rate", Value.str "low (23.4 var/Mb)")]
    "low".data ['2', '3', '.', '4'] "low (23.4 var/Mb)"
    (by decide) (Or.inl rfl) (by decide) (by decide) (by decide) rfl (by decide)
  exact h

theorem convert_forall_upgrade (oldK newK : String) (hne : oldK ≠ newK) :
    ∀ (l l' : List (String × Dict)),
      (∀ p ∈ l, ((keys (p : String × Dict).2).Nodup)) →
      List.Forall₂ (fun p p' => (p' : String × Dict).1 = (p : String × Dict).1 ∧
        ∀ q : ℚ, lookup? p.2 oldK = some (Value.num q) →
          p'.2 = eraseKey (insertKey p.2 newK (Value.num (q * 1000000))) oldK) l l' →
      List.Forall₂ (fun p p' => (p' : String × Dict).1 = (p : String × Dict).1 ∧
        ∀ q : ℚ, lookup? p.2 oldK = some (Value.num q) →
          lookup? p'.2 newK = some (Value.num (q * 1000000)) ∧
          lookup? p'.2 oldK = none) l l' := by
  intro l
  induction l with
  | nil =>
    intro l' _ hf
    cases hf
    exact List.Forall₂.nil
  | cons a rest ih =>
    intro l' hnd hf
    cases hf with
    | cons hpair htail =>
      refine List.Forall₂.cons ⟨hpair.1, ?_⟩
        (ih _ (fun p hp => hnd p (List.mem_cons_of_mem _ hp)) htail)
      intro q hq
      rw [hpair.2 q hq]
      constructor
      · rw [lookup_eraseKey_ne _ oldK newK (Ne.symm hne), lookup_insertKey_self]
      · exact lookup_eraseKey_self _ oldK
          (nodup_keys_insertKey _ newK _ (hnd a (List.mem_cons_self _ _)))

/-- C8: the shared megabase conversion, called by ReadQC for the pair
"bases sequenced (MB)" to "bases sequenced" and by MappingQC for the pair
"bases usable (MB)" to "bases usable": when it completes, every sample stores
under the new key the old value multiplied by 1e6 and no longer has the
megabyte-scaled key, and the description table loses the old key and gains
the new one (with the synthetic description and no accession). -/
theorem claim_C8 (oldK newK desc : String) (t t' : Table)
    (qcdata l' : List (String × Dict))
    (hkeys : (oldK, newK) = ("bases sequenced (MB)", "bases sequenced") ∨
      (oldK, newK) = ("bases usable (MB)", "bases usable"))
    (hndt : (keys t).Nodup)
    (hnds : ∀ p ∈ qcdata, ((keys (p : String × Dict).2).Nodup))
    (hok : mbConvert oldK newK desc t qcdata = .ok (t', l')) :
    lookup? t' newK = some ⟨desc, none⟩ ∧
    lookup? t' oldK = none ∧
    List.Forall₂ (fun p p' => (p' : String × Dict).1 = (p : String × Dict).1 ∧
      ∀ q : ℚ, lookup? p.2 oldK = some (Value.num q) →
        lookup? p'.2 newK = some (Value.num (q * 1000000)) ∧
        lookup? p'.2 oldK = none) qcdata l' := by
  have hne : oldK ≠ newK := by
    rcases hkeys with h | h <;>
      (injection h with h1 h2; rw [h1, h2]; decide)
  rcases mbConvert_ok_elim oldK newK desc t qcdata t' l' hok with ⟨ht, hconv, ht'⟩
  have hall : ∀ p ∈ qcdata, ∃ q, lookup? (p : String × Dict).2 oldK =
      some (Value.num q) := convertSamples_ok_all oldK newK qcdata l' hconv
  rcases convertSamples_ok_of_all oldK newK qcdata hall with ⟨l'', hconv', hf⟩
  have hl : l'' = l' := by
    rw [hconv] at hconv'
    injection hconv' with h
    exact h.symm
  rw [hl] at hf
  refine ⟨?_, ?_, convert_forall_upgrade oldK newK hne qcdata l' hnds hf⟩
  · rw [ht']
    exact lookup_insertKey_self _ newK _
  · rw [ht', lookup_insertKey_ne _ newK oldK _ hne]
    exact lookup_eraseKey_self t oldK hndt

theorem claim_C8_witness :
    lookup? ([("read count", ⟨"dR", some "aR"⟩),
              ("bases sequenced", ⟨"Bases sequenced in total.", none⟩)] : Table)
        "bases sequenced" = some ⟨"Bases sequenced in total.", none⟩ ∧
    lookup? ([("read count", ⟨"dR", some "aR"⟩),
              ("bases sequenced", ⟨"Bases sequenced in total.", none⟩)] : Table)
        "bases sequenced (MB)" = none ∧
    List.Forall₂ (fun p p' => (p' : String × Dict).1 = (p : String × Dict).1 ∧
      ∀ q : ℚ, lookup? p.2 "bases sequenced (MB)" = some (Value.num q) →
        lookup? p'.2 "bases sequenced" = some (Value.num (q * 1000000)) ∧
        lookup? p'.2 "bases sequenced (MB)" = none)
      [("S1", [("bases sequenced (MB)", Value.num ((5 : ℕ) : ℚ)),
               ("read count", Value.num ((9 : ℕ) : ℚ))])]
      [("S1", [("read count", Value.num ((9 : ℕ) : ℚ)),
               ("bases sequenced", Value.num (((5 : ℕ) : ℚ) * 1000000))])] :=
  claim_C8 "bases sequenced (MB)" "bases sequenced" "Bases sequenced in total."
    [("bases sequenced (MB)", ⟨"dB", some "aB"⟩), ("read count", ⟨"dR", some "aR"⟩)]
    [("read count", ⟨"dR", some "aR"⟩),
     ("bases sequenced", ⟨"Bases sequenced in total.", none⟩)]
    [("S1", [("bases sequenced (MB)", Value.num ((5 : ℕ) : ℚ)),
             ("read count", Value.num ((9 : ℕ) : ℚ))])]
    [("S1", [("read count", Value.num ((9 : ℕ) : ℚ)),
             ("bases sequenced", Value.num (((5 : ℕ) : ℚ) * 1000000))])]
    (Or.inl rfl) (by decide) (by decide) rfl

/-- C7 counterexample: the claim says the module never fails because an
optional display parameter is missing, but when target region 10x % is
present while target region 20x % is absent, the target-coverage bar plot
accesses headers with the missing key directly (outside any try block and
outside dict_ordered_subset) and the module aborts with KeyError. -/
theorem claim_C7_counterexample :
    mappingqc_init pyFloatSimple (fun _ => false)
      [("S", [mkElem "trimmed base %" "1" "d" "a",
              mkElem "clipped base %" "1" "d" "a",
              mkElem "mapped read %" "1" "d" "a",
              mkElem "on-target read %" "1" "d" "a",
              mkElem "bases usable (MB)" "1" "d" "a",
              mkElem "target region read depth" "1" "d" "a",
              mkElem "target region 10x %" "1" "d" "a"])] =
      .err (.keyError "target region 20x %") := rfl

/-- C7 amended: absence of duplicate read %, properly-paired read %, insert
size or SNV allele frequency deviation is always tolerated, and the coverage
family is tolerated as a whole: provided that whenever target region 10x % is
present the depth key and every target region Nx % key are present too, the
module succeeds, and every optional key that is absent appears in no rendered
column dict.  Without that proviso the module can fail (see the
counterexample), so the spec sentence holds only in this weakened form. -/
theorem claim_C7_amended (pyFloat : String → Option ℚ) (ign : String → Bool)
    (files : Files) (q0 : List (String × Dict)) (t0 : Table)
    (hp : parsePhase pyFloat files [] [] = .ok (q0, t0))
    (hne : ignoreSamples ign q0 ≠ [])
    (hnum : ∀ p ∈ ignoreSamples ign q0,
      ∃ q, lookup? (p : String × Dict).2 "bases usable (MB)" = some (Value.num q))
    (hmbk : hasKey t0 "bases usable (MB)" = true)
    (hreq1 : "trimmed base %" ∈ keys t0) (hreq2 : "clipped base %" ∈ keys t0)
    (hreq3 : "mapped read %" ∈ keys t0) (hreq4 : "on-target read %" ∈ keys t0)
    (hcov : "target region 10x %" ∈ keys t0 →
      ("target region read depth" ∈ keys t0 ∧
       ∀ x ∈ coverageValues, covKey x ∈ keys t0)) :
    (∀ e, mappingqc_init pyFloat ign files ≠ .err e) ∧
    (∀ out, mappingqc_init pyFloat ign files = .ok out →
      ∀ k ∈ mappingqcOptionalKeys, k ∉ keys t0 →
      ∀ tbl ∈ mappingqcTables out, k ∉ keys tbl) := by
  have hie : (ignoreSamples ign q0).isEmpty = false := by
    cases hq : ignoreSamples ign q0 with
    | nil => exact absurd hq hne
    | cons a l => rfl
  rcases mbConvert_ok "bases usable (MB)" "bases usable"
      "Bases sequenced in total." t0 (ignoreSamples ign q0) hmbk hnum with
    ⟨l', hmb, -⟩
  set t1 := insertKey (eraseKey t0 "bases usable (MB)") "bases usable"
    ⟨"Bases sequenced in total.", none⟩ with ht1
  have hmem_t1 : ∀ k, k ∈ keys t0 → k ≠ "bases usable (MB)" → k ∈ keys t1 :=
    fun k hk hne' => mem_keys_insertKey_of_mem _ _ _ _
      (mem_keys_eraseKey_of_ne t0 "bases usable (MB)" k hk hne')
  have husable : ("bases usable" : String) ∈ keys t1 :=
    (mem_keys_insertKey_iff _ _ _ _).mpr (Or.inr rfl)
  have habsent_t1 : ∀ k, k ∉ keys t0 → k ≠ "bases usable" → k ∉ keys t1 := by
    intro k hk hne' hmem
    rcases (mem_keys_insertKey_iff _ _ _ _).mp hmem with hm | he
    · exact hk (keys_eraseKey_subset t0 _ k hm)
    · exact hne' he
  have hreqmem : ∀ p ∈ mappingqcRequired, (p : String × String).1 ∈ keys t1 := by
    intro p hp'
    rcases (by simpa [mappingqcRequired] using hp' :
        p = ("trimmed base %", "suffix:pct format:2f floor:1 scale:PuBu") ∨
        p = ("clipped base %", "suffix:pct format:2f floor:1 scale:PuRd") ∨
        p = ("mapped read %", "suffix:pct format:2f max:100 scale:Reds") ∨
        p = ("bases usable",
          "suffix:base-count format:2f modify:base-count-multiplier scale:Greens") ∨
        p = ("on-target read %", "suffix:pct format:2f max:100 scale:Purples")) with
      rfl | rfl | rfl | rfl | rfl
    · exact hmem_t1 _ hreq1 (by decide)
    · exact hmem_t1 _ hreq2 (by decide)
    · exact hmem_t1 _ hreq3 (by decide)
    · exact husable
    · exact hmem_t1 _ hreq4 (by decide)
  rcases mappingqcHeaders_ok t1 hreqmem with ⟨h, hh, hkeysh⟩
  have hinv0 : ∀ p ∈ ([] : Table), (p.2 : TableEntry).accession.isSome = true :=
    fun p hp' => absurd hp' (List.not_mem_nil p)
  by_cases h10 : ("target region 10x %" : String) ∈ keys t0
  · have h10t1 : ("target region 10x %" : String) ∈ keys t1 :=
      hmem_t1 _ h10 (by decide)
    have hhas : hasKey h "target region 10x %" = true :=
      (hasKey_iff_mem h _).mpr (by rw [hkeysh]; exact h10t1)
    rcases hcov h10 with ⟨hdepth, hfam⟩
    have hdepth_t1 : lookup? t1 "target region read depth" =
        lookup? t0 "target region read depth" := by
      rw [ht1, lookup_insertKey_ne _ _ _ _ (by decide),
        lookup_eraseKey_ne _ _ _ (by decide)]
    rcases lookup_some_of_mem_keys t0 _ hdepth with ⟨entry, hentry⟩
    have hacc : entry.accession.isSome = true :=
      parsePhase_acc pyFloat files [] [] q0 t0 hinv0 hp
        ("target region read depth", entry) (lookup_mem t0 _ entry hentry)
    rcases Option.isSome_iff_exists.mp hacc with ⟨a, ha⟩
    have hdesc : make_description t1 ["target region read depth"] =
        .ok entry.description := by
      show descAccession t1 "target region read depth" = .ok entry.description
      exact descAccession_ok t1 _ entry a (by rw [hdepth_t1]; exact hentry) ha
    have hfamh : ∀ k ∈ coverageValues.map covKey, k ∈ keys h := by
      intro k hk
      rcases List.mem_map.mp hk with ⟨x, hx, rfl⟩
      have hxmem : covKey x ∈ keys t0 := hfam x hx
      have hnex : covKey x ≠ "bases usable (MB)" := by
        rcases (by simpa [coverageValues] using hx :
            x = 10 ∨ x = 20 ∨ x = 30 ∨ x = 50 ∨ x = 100 ∨ x = 200 ∨ x = 500) with
          rfl | rfl | rfl | rfl | rfl | rfl | rfl <;> decide
      rw [hkeysh]
      exact hmem_t1 _ hxmem hnex
    rcases covSingletons_ok h (coverageValues.map covKey) hfamh with
      ⟨lst, hcovok, hlst⟩
    have hok : mappingqc_init pyFloat ign files =
        .ok ⟨l', dict_ordered_subset h mappingqcGeneralCols,
             dict_ordered_subset h mappingqcOverviewCols,
             some ⟨dict_ordered_subset h mappingqcCoverageCols, entry.description,
                   dict_ordered_subset h ["target region read depth"], lst⟩⟩ := by
      rw [mappingqc_init_eval pyFloat ign files q0 t0 hp hie]
      simp only [hmb]
      simp only [hh]
      rw [if_pos hhas]
      simp only [hdesc]
      simp only [hcovok]
    constructor
    · intro e hcontra
      rw [hok] at hcontra
      exact PRes.noConfusion hcontra
    · intro out hout k hkopt hk0 tbl htbl
      rw [hok] at hout
      injection hout with hout
      have hkne : k ≠ "bases usable" := by
        intro e
        rw [e] at hkopt
        exact absurd hkopt (by decide)
      have hkh : k ∉ keys h := by
        rw [hkeysh]
        exact habsent_t1 k hk0 hkne
      rw [← hout] at htbl
      simp only [mappingqcTables, List.mem_append, List.mem_cons,
        List.mem_singleton, List.not_mem_nil, or_false] at htbl
      rcases htbl with (rfl | rfl | rfl | rfl) | htbl'
      · exact fun hktbl => hkh (mem_keys_dict_ordered_subset h _ k hktbl)
      · exact fun hktbl => hkh (mem_keys_dict_ordered_subset h _ k hktbl)
      · exact fun hktbl => hkh (mem_keys_dict_ordered_subset h _ k hktbl)
      · exact fun hktbl => hkh (mem_keys_dict_ordered_subset h _ k hktbl)
      · rcases hlst tbl htbl' with ⟨k', v, hk', rfl⟩
        intro hktbl
        rw [keys_singleton, List.mem_singleton] at hktbl
        rcases List.mem_map.mp hk' with ⟨x, hx, he⟩
        exact hk0 (by rw [hktbl, ← he]; exact hfam x hx)
  · have hhas : hasKey h "target region 10x %" = false := by
      cases hb : hasKey h "target region 10x %" with
      | false => rfl
      | true =>
        exfalso
        have hmemh := (hasKey_iff_mem h _).mp hb
        rw [hkeysh] at hmemh
        rcases (mem_keys_insertKey_iff _ _ _ _).mp hmemh with hm | he
        · exact h10 (keys_eraseKey_subset t0 _ _ hm)
        · exact absurd he (by decide)
    have hok : mappingqc_init pyFloat ign files =
        .ok ⟨l', dict_ordered_subset h mappingqcGeneralCols,
             dict_ordered_subset h mappingqcOverviewCols, none⟩ := by
      rw [mappingqc_init_eval pyFloat ign files q0 t0 hp hie]
      simp only [hmb]
      simp only [hh]
      rw [if_neg (by simp [hhas])]
    constructor
    · intro e hcontra
      rw [hok] at hcontra
      exact PRes.noConfusion hcontra
    · intro out hout k hkopt hk0 tbl htbl
      rw [hok] at hout
      injection hout with hout
      have hkne : k ≠ "bases usable" := by
        intro e
        rw [e] at hkopt
        exact absurd hkopt (by decide)
      have hkh : k ∉ keys h := by
        rw [hkeysh]
        exact habsent_t1 k hk0 hkne
      rw [← hout] at htbl
      simp only [mappingqcTables, List.mem_cons, List.mem_singleton,
        List.not_mem_nil, or_false] at htbl
      rcases htbl with rfl | rfl
      · exact fun hktbl => hkh (mem_keys_dict_ordered_subset h _ k hktbl)
      · exact fun hktbl => hkh (mem_keys_dict_ordered_subset h _ k hktbl)

theorem claim_C7_amended_witness :
    mappingqc_init pyFloatSimple (fun _ => false)
        [("S", [mkElem "trimmed base %" "1" "d" "a",
                mkElem "clipped base %" "1" "d" "a",
                mkElem "mapped read %" "1" "d" "a",
                mkElem "on-target read %" "1" "d" "a",
                mkElem "bases usable (MB)" "1" "d" "a"])] ≠
      .err PyErr.userWarning ∧
    ("duplicate read %" : String) ∉ keys
      ([("bases usable", ⟨"MappingQC", "bases usable", "Bases sequenced in total.",
          ["suffix:base-count format:2f modify:base-count-multiplier scale:Greens"]⟩),
        ("mapped read %", ⟨"MappingQC", "mapped read %", "d",
          ["suffix:pct format:2f max:100 scale:Reds"]⟩),
        ("on-target read %", ⟨"MappingQC", "on-target read %", "d",
          ["suffix:pct format:2f max:100 scale:Purples"]⟩)] : Headers) := by
  have h := claim_C7_amended pyFloatSimple (fun _ => false)
    [("S", [mkElem "trimmed base %" "1" "d" "a",
            mkElem "clipped base %" "1" "d" "a",
            mkElem "mapped read %" "1" "d" "a",
            mkElem "on-target read %" "1" "d" "a",
            mkElem "bases usable (MB)" "1" "d" "a"])]
    [("S", [("trimmed base %", Value.num ((1 : ℕ) : ℚ)),
            ("clipped base %", Value.num ((1 : ℕ) : ℚ)),
            ("mapped read %", Value.num ((1 : ℕ) : ℚ)),
            ("on-target read %", Value.num ((1 : ℕ) : ℚ)),
            ("bases usable (MB)", Value.num ((1 : ℕ) : ℚ))])]
    [("trimmed base %", ⟨"d", some "a"⟩), ("clipped base %", ⟨"d", some "a"⟩),
     ("mapped read %", ⟨"d", some "a"⟩), ("on-target read %", ⟨"d", some "a"⟩),
     ("bases usable (MB)", ⟨"d", some "a"⟩)]
    rfl (fun hx => List.noConfusion hx)
    (fun p hp => by
      rw [List.mem_singleton.mp hp]
      exact ⟨((1 : ℕ) : ℚ), rfl⟩)
    rfl (by decide) (by decide) (by decide) (by decide)
    (fun hx => absurd hx (by decide))
  exact ⟨h.1 PyErr.userWarning, h.2 _ rfl "duplicate read %" (by decide) (by decide)
    _ (by decide)⟩

end Qcml
